import Mathlib

/-!
Shallow embedding of the parsing core of the gorgo repository
(packages `lr`, `lr/earley`, `lr/sppf`), together with theorems about the
behaviour of the embedded functions.

Positions and state indices are Go `uint64` values and are embedded as `Nat`
(wrapping is made explicit at the few spots where a multiplication may
overflow).  Go `int`/`int32`/`int64` values are embedded as `Int`, again with
explicit wrapping where overflow is reachable.  Go functions that may panic
are embedded with the result type `Res`, whose `crash` constructor stands for
a runtime panic.
-/

set_option maxRecDepth 4096

namespace Gorgo

/-- Result of running a piece of Go code that may panic: `crash` models a
runtime panic (nil-pointer dereference, index out of range, or an explicit
`panic` call), `ok` a normal return. -/
inductive Res (α : Type) where
  | crash : Res α
  | ok : α → Res α
deriving DecidableEq, Repr

instance : Monad Res where
  pure := Res.ok
  bind := fun r f => match r with
    | .crash => .crash
    | .ok a => f a

/-- `isCrash` tests whether a run panicked. -/
def Res.isCrash {α : Type} : Res α → Bool
  | .crash => true
  | .ok _ => false

/-- Modelled from the spec: the grammar symbol type of package `lr`
(`lr/grammar.go` is absent from the sources; only its uses are present).
A symbol is identified by a name and an integer value; non-terminals carry
positive builder-assigned values, terminals carry an application-defined
token type (spec §3 "Symbol").  Names are interned as naturals here; the
distinguished wrapper start symbol `S'` has the reserved name id
`startName`, the synthetic ε terminal the id `epsName`.  Symbol identity in
a grammar is by handle with unique names (spec §3), so record equality is
an adequate embedding of Go pointer equality. -/
structure Symbol where
  name : Nat
  value : Int
  terminal : Bool
deriving DecidableEq, Repr

/-- Reserved name id of the wrapper start symbol `S'`. -/
def startName : Nat := 0

/-- Reserved name id of the synthetic ε terminal created by
`Forest.AddEpsilonReduction` (`lr/sppf/forest.go`): `Symbol{Name: ε, Value: -2}`. -/
def epsName : Nat := 1

/-- The ε symbol allocated by `AddEpsilonReduction` (`lr/sppf/forest.go`). -/
def epsSymbol : Symbol := { name := epsName, value := -2, terminal := true }

/-- Modelled from the spec: a grammar rule of package `lr` — an ordered
`(LHS, RHS)` pair numbered by insertion order (`Serial`), spec §3 "Rule". -/
structure Rule where
  lhs : Symbol
  rhs : List Symbol
  serial : Nat
deriving DecidableEq, Repr

/-- Modelled from the spec: an LR/Earley item `(rule, dot-position, origin)`
of package `lr` (spec §3 "LR item"); two items are equal iff all three
fields are equal, so record equality embeds Go value equality. -/
structure Item where
  rule : Rule
  dot : Nat
  origin : Nat
deriving DecidableEq, Repr

/-- Modelled from the spec: `peek(item)` returns the symbol immediately right
of the dot, or none if the item is reducible (spec §4.2).  This embeds
`lr.Item.PeekSymbol`, which returns nil for a reducible item. -/
def peekSymbol (i : Item) : Option Symbol :=
  i.rule.rhs.get? i.dot

/-- Modelled from the spec: `advance(item)` moves the dot one symbol to the
right, or yields the null sentinel (`lr.NullItem`, embedded as `none`) when
the dot is already at the end (spec §4.2). -/
def advance (i : Item) : Option Item :=
  if i.dot < i.rule.rhs.length then some { i with dot := i.dot + 1 } else none

/-- The advanced version of an item (total companion of `advance`; used for
stating membership results about `scan`, which only advances items whose
dot is not at the end). -/
def advanced (i : Item) : Item :=
  { i with dot := i.dot + 1 }

/-- Modelled from the spec: `prefix(item)` returns the symbols left of the
dot (spec §4.2); embeds `lr.Item.Prefix` as used by `buildActionTable`. -/
def prefixSyms (i : Item) : List Symbol :=
  i.rule.rhs.take i.dot

/-- Modelled from the spec: the grammar of package `lr` after analysis.  The
analyzer prepends the wrapper rule `S' → S` at index 0 (spec §3 "Rule":
"rule 0 is `S' → S`"), which the embedding records structurally:
`rule0` is the rule at index 0, `moreRules` are the remaining rules in
insertion order, and `symbols` is the grammar's symbol list (used by the
table generator to determine the column range). -/
structure Grammar where
  rule0 : Rule
  moreRules : List Rule
  symbols : List Symbol
deriving DecidableEq, Repr

/-- All rules of a grammar in insertion order; rule 0 first. -/
def Grammar.rules (g : Grammar) : List Rule :=
  g.rule0 :: g.moreRules

/-- Modelled from the spec: adding an element to an `iteratable.Set`
(implementation absent from the sources; behaviour per spec §9: an
insertion-ordered set where "on every `add`, append to the end; duplicate
inserts are no-ops"). -/
def setAdd (S : List Item) (x : Item) : List Item :=
  if x ∈ S then S else S ++ [x]

/-- `scanner.EOF`, identical to `text/scanner.EOF` (`lr/scanner/scanner.go`). -/
def scannerEOF : Int := -1

/-- A token as delivered by a `scanner.Tokenizer`: token type plus lexeme
(the lexeme is interned as a natural; semantic value and span are not
needed by the embedded code paths). -/
structure Token where
  tokType : Int
  lex : Nat
deriving DecidableEq, Repr

/- ===== Earley recognizer (`lr/earley/ruleset.go`) ===== -/

/-- The scanner step of the Earley inner loop (`lr/earley/ruleset.go`,
`Parser.scan`): if the symbol after the dot exists and its `Value` equals
the current token value, the advanced item is added to the next state set
`S1`.  Note that the Go code compares only `a.Value == tokval`; it does not
test `a` for being a terminal. -/
def scan (S1 : List Item) (item : Item) (tokval : Int) : List Item :=
  match peekSymbol item with
  | some a =>
      if a.value = tokval then
        match advance item with
        | some adv => setAdd S1 adv
        | none => S1
      else S1
  | none => S1

/-- `Parser.checkAccept` (`lr/earley/ruleset.go`): search the final state set
for a reducible item (`PeekSymbol() == nil`) whose rule's LHS equals the
LHS of rule 0.  `Parse` returns this value as its acceptance bit. -/
def checkAccept (g : Grammar) (S : List Item) : Bool :=
  S.any fun it => peekSymbol it == none && it.rule.lhs == g.rule0.lhs

/- ===== Parser options and the token buffer (`lr/earley/ruleset.go`) ===== -/

/-- Mode bit `optionStoreTokens` (`lr/earley/ruleset.go`): `1 << 1`. -/
def optionStoreTokens : Nat := 2

/-- Mode bit `optionGenerateTree` (`lr/earley/ruleset.go`): `1 << 2`. -/
def optionGenerateTree : Nat := 4

/-- `Parser.hasmode` (`lr/earley/ruleset.go`): `p.mode & m > 0`. -/
def hasmode (mode m : Nat) : Bool :=
  decide (0 < mode &&& m)

/-- The parser options exported by package `earley`
(`StoreTokens` and `GenerateTree`, `lr/earley/ruleset.go`). -/
inductive ParserOption where
  | storeTokens (b : Bool)
  | generateTree (b : Bool)
deriving DecidableEq, Repr

/-- Effect of one option function on the parser's mode word
(`lr/earley/ruleset.go`, `StoreTokens` / `GenerateTree`): both test the
generate-tree bit and or a bit into the mode. -/
def applyOption (mode : Nat) : ParserOption → Nat
  | .storeTokens b =>
      if (!hasmode mode optionGenerateTree && b) ||
         (hasmode mode optionGenerateTree && !b) then
        mode ||| optionStoreTokens
      else mode
  | .generateTree b =>
      if (!hasmode mode optionGenerateTree && b) ||
         (hasmode mode optionGenerateTree && !b) then
        mode ||| optionGenerateTree
      else mode

/-- The mode word of a parser constructed by `earley.NewParser`
(`lr/earley/ruleset.go`): initialized to `optionStoreTokens`, then each
option is applied in order. -/
def newParserMode (opts : List ParserOption) : Nat :=
  opts.foldl applyOption optionStoreTokens

/-- Effect of `Parser.setupNextState` (`lr/earley/ruleset.go`) on the token
buffer: the token just read is appended iff the store-tokens mode bit is
set. -/
def setupNextStateTokens (mode : Nat) (tokens : List (Option Token)) (t : Token) :
    List (Option Token) :=
  if hasmode mode optionStoreTokens then tokens ++ [some t] else tokens

/-- The tokens consumed by the `Parse` main loop (`lr/earley/ruleset.go`):
tokens are read until (and including) the first token whose value is
`scanner.EOF`. -/
def consumeUntilEOF : List Token → List Token
  | [] => []
  | t :: ts => if t.tokType = scannerEOF then [t] else t :: consumeUntilEOF ts

/-- The parser's token buffer after a `Parse` run with token storing enabled:
slot 0 is the pre-allocated empty slot (`make([]gorgo.Token, 1, 512)` in
`NewParser`, a nil interface, embedded as `none`), and `setupNextState`
appends every consumed token, the final EOF token included. -/
def parseTokenBuffer (input : List Token) : List (Option Token) :=
  none :: (consumeUntilEOF input).map some

/-- `Parser.TokenAt` (walker part of package `earley`): after checking
`pos >= 0 && pos < uint64(len(p.tokens))` (the first conjunct is vacuous
for an unsigned argument) it returns `p.tokens[pos+1]`, which panics when
`pos+1` is out of range; otherwise it returns nil. -/
def tokenAt (tokens : List (Option Token)) (pos : Nat) : Res (Option Token) :=
  if pos < tokens.length then
    match tokens.get? (pos + 1) with
    | some v => Res.ok v
    | none => Res.crash
  else Res.ok none

/- ===== Backward derivation walk (earley walker file) ===== -/

/-- The candidate-selection loop in the `default:` (ambiguous) case of
`Parser.walk` (earley walker file): starting from the null item
(`longest.Rule() == nil`, embedded as `none`), iterate over the completed
candidate items `R` in set order; skip candidates whose rule is in `trys`
or whose origin lies left of the parent item's origin; otherwise replace
the current best by the candidate if its origin is strictly smaller, or
equal with a strictly smaller rule serial.  (The comparison on rule length
present in the source is commented out there.) -/
def walkSelectStep (item : Item) (trys : List Rule) (best : Option Item)
    (cand : Item) : Option Item :=
  if cand.rule ∈ trys then best
  else if item.origin ≤ cand.origin then
    match best with
    | none => some cand
    | some b =>
        if cand.origin < b.origin then some cand
        else if cand.origin = b.origin ∧ cand.rule.serial < b.rule.serial then some cand
        else some b
  else best

/-- The complete selection loop: fold `walkSelectStep` over the candidate
items in set-iteration order, starting from the null item. -/
def walkSelectCompleter (item : Item) (trys : List Rule) (R : List Item) : Option Item :=
  R.foldl (walkSelectStep item trys) none

/-- `stuck` (earley walker file): emit a diagnostic and return true; if the
configuration flag `panic-on-parser-stuck` is set, panic instead. -/
def stuck (panicOnParserStuck : Bool) : Res Bool :=
  if panicOnParserStuck then Res.crash else Res.ok true

/- ===== SPPF forest (`lr/sppf/forest.go`) ===== -/

/-- A symbol node `[A (x…y)]` of the parse forest (`lr/sppf/forest.go`,
`SymbolNode`): a grammar symbol plus the input span it covers.  Symbol
nodes are deduplicated by `(start, end, symbol)` in the Go code, so record
equality embeds pointer identity. -/
structure SymbolNode where
  sym : Symbol
  fromPos : Nat
  toPos : Nat
deriving DecidableEq, Repr

/-- An RHS node `[δ (x) Σ]` of the parse forest (`lr/sppf/forest.go`,
`rhsNode`): rule number, start position and the signature Σ of the children.
RHS nodes are deduplicated by `(start, rule, Σ)` in the Go code, so record
equality embeds pointer identity. -/
structure RhsNode where
  rule : Int
  start : Nat
  sigma : Int
deriving DecidableEq, Repr

/-- An or-edge from a symbol node to one of its RHS alternatives
(`lr/sppf/forest.go`, `orEdge`). -/
structure OrEdge where
  fromSym : SymbolNode
  toRHS : RhsNode
deriving DecidableEq, Repr

/-- An and-edge from an RHS node to one of its children, labelled with the
child's sequence number (`lr/sppf/forest.go`, `andEdge`). -/
structure AndEdge where
  fromRHS : RhsNode
  toSym : SymbolNode
  seq : Nat
deriving DecidableEq, Repr

/-- The forest state (`lr/sppf/forest.go`, `Forest`).  The two search trees
(maps of maps of iteratable sets) are embedded as insertion-ordered lists —
lookups in the Go code always constrain every key component, so the nested
map is observationally an association structure keyed by all components.
The per-node edge sets are likewise embedded as one insertion-ordered list
each, filtered by source node on lookup. -/
structure Forest where
  symbolNodes : List SymbolNode
  rhsNodes : List RhsNode
  orEdges : List OrEdge
  andEdges : List AndEdge
  parent : List (SymbolNode × SymbolNode)
  root : Option SymbolNode
deriving DecidableEq, Repr

/-- `NewForest` (`lr/sppf/forest.go`): the empty forest. -/
def newForest : Forest :=
  { symbolNodes := [], rhsNodes := [], orEdges := [], andEdges := [],
    parent := [], root := none }

/-- 2^63, for Go `int64` wrap-around. -/
def twoPow63 : Int := 9223372036854775808

/-- 2^64, for Go `uint64`/`int64` wrap-around. -/
def twoPow64 : Int := 18446744073709551616

/-- Go `int64` wrap-around semantics for a mathematical integer. -/
def wrap64 (x : Int) : Int :=
  (x + twoPow63) % twoPow64 - twoPow63

/-- 2^31, for Go `int32` conversion. -/
def twoPow31 : Int := 2147483648

/-- Go `int32(...)` conversion of an `int64` value. -/
def wrap32 (x : Int) : Int :=
  (x + twoPow31) % (2 * twoPow31) - twoPow31

/-- `abs` (`lr/sppf/forest.go`): Go negation of an `int` (which wraps for the
minimal value) followed by the `int64` conversion. -/
def absGo (n : Int) : Int :=
  if n < 0 then wrap64 (-n) else n

/-- The offset array `o` used by the signature function (`lr/sppf/forest.go`). -/
def oArr : List Int :=
  [107, 401, 353, 223, 811, 569, 619, 173, 433, 757, 811,
   823, 857, 863, 883, 907, 929, 947, 971, 983]

/-- `largePrime` (`lr/sppf/forest.go`, `rhsSignature`). -/
def largePrime : Int := 143743

/-- One iteration of the signature loop of `rhsSignature`
(`lr/sppf/forest.go`): multiply in the absolute symbol value (if non-zero)
and the position-dependent offset, reducing mod `largePrime` after each
multiplication.  Go's `%` on `int64` is truncated division, `Int.tmod`;
multiplications wrap at 64 bits; `from*from` is a `uint64` multiplication
and wraps at 2^64. -/
def sigStep (h : Int) (sn : SymbolNode) : Int :=
  let v := absGo sn.sym.value
  let h1 := if v ≠ 0 then wrap64 (h * v) else h
  let h2 := Int.tmod h1 largePrime
  let idx := ((sn.fromPos * sn.fromPos) % 18446744073709551616) % 20
  let h3 := wrap64 (h2 * (oArr.getD idx 0 + wrap64 (sn.fromPos : Int)))
  Int.tmod h3 largePrime

/-- `rhsSignature` (`lr/sppf/forest.go`): hash over the `(symbol value,
from-position)` pairs of the RHS children; for an ε-RHS the signature is
determined by the start position alone. -/
def rhsSignature (rhs : List SymbolNode) (start : Nat) : Int :=
  if rhs = [] then wrap32 (oArr.getD (start % 20) 0)
  else wrap32 (rhs.foldl sigStep 817)

/-- `findSymNode` / `searchTree.findSymbol` (`lr/sppf/forest.go`): the first
symbol node stored under `(start, end)` whose symbol is `sym`. -/
def findSymNode (f : Forest) (sym : Symbol) (start endp : Nat) : Option SymbolNode :=
  f.symbolNodes.find? fun n => n.fromPos = start ∧ n.toPos = endp ∧ n.sym = sym

/-- `addSymNode` (`lr/sppf/forest.go`): return the shared node for
`(sym, start, end)`, creating and storing it if absent. -/
def addSymNode (f : Forest) (sym : Symbol) (start endp : Nat) : Forest × SymbolNode :=
  match findSymNode f sym start endp with
  | some sn => (f, sn)
  | none =>
      let sn : SymbolNode := { sym := sym, fromPos := start, toPos := endp }
      ({ f with symbolNodes := f.symbolNodes ++ [sn] }, sn)

/-- `findRHSNode` / `searchTree.findRHS` (`lr/sppf/forest.go`): the first RHS
node stored under `(start, rule)` whose signature matches.  The children
themselves are not compared. -/
def findRHSNode (f : Forest) (rule : Int) (rhs : List SymbolNode) (start : Nat) :
    Option RhsNode :=
  let signature := rhsSignature rhs start
  f.rhsNodes.find? fun n => n.start = start ∧ n.rule = rule ∧ n.sigma = signature

/-- `addRHSNode` (`lr/sppf/forest.go`): return the shared RHS node for
`(rule, start, Σ(rhs))`, creating and storing it if absent. -/
def addRHSNode (f : Forest) (rule : Int) (rhs : List SymbolNode) (start : Nat) :
    Forest × RhsNode :=
  match findRHSNode f rule rhs start with
  | some n => (f, n)
  | none =>
      let n : RhsNode := { rule := rule, start := start, sigma := rhsSignature rhs start }
      ({ f with rhsNodes := f.rhsNodes ++ [n] }, n)

/-- Modelled from the spec: `findOrEdge` (`lr/sppf/forest.go`) looks up the
or-edge between a symbol node and an RHS node via `iteratable.Set.FirstMatch`
(set implementation absent from the sources); per spec §4.6 or-edges are
simply present or absent, so the lookup is embedded as a list search. -/
def findOrEdge (f : Forest) (sn : SymbolNode) (rhs : RhsNode) : Option OrEdge :=
  f.orEdges.find? fun e => e.fromSym = sn ∧ e.toRHS = rhs

/-- `addOrEdge` (`lr/sppf/forest.go`): ensure the symbol node exists and
insert the or-edge to `rhs` unless it is already present. -/
def addOrEdge (f : Forest) (sym : Symbol) (rhs : RhsNode) (start endp : Nat) : Forest :=
  let f1 := (addSymNode f sym start endp).1
  let sn := (addSymNode f sym start endp).2
  match findOrEdge f1 sn rhs with
  | some _ => f1
  | none => { f1 with orEdges := f1.orEdges ++ [{ fromSym := sn, toRHS := rhs }] }

/-- `findAndEdge` (`lr/sppf/forest.go`): the and-edge from `rhs` to `sn`,
if present. -/
def findAndEdge (f : Forest) (rhs : RhsNode) (sn : SymbolNode) : Option AndEdge :=
  f.andEdges.find? fun e => e.fromRHS = rhs ∧ e.toSym = sn

/-- `addAndEdge` (`lr/sppf/forest.go`): ensure the child symbol node exists
and insert the and-edge labelled `seq`; if an edge between the same pair of
nodes already exists with a different sequence number, the Go code panics. -/
def addAndEdge (f : Forest) (rhs : RhsNode) (seq : Nat) (sym : Symbol)
    (start endp : Nat) : Res (Forest × AndEdge) :=
  let f1 := (addSymNode f sym start endp).1
  let sn := (addSymNode f sym start endp).2
  match findAndEdge f1 rhs sn with
  | none =>
      let e : AndEdge := { fromRHS := rhs, toSym := sn, seq := seq }
      Res.ok ({ f1 with andEdges := f1.andEdges ++ [e] }, e)
  | some e =>
      if e.seq ≠ seq then Res.crash else Res.ok (f1, e)

/-- Update the parent map: `f.parent[d] = p` (`lr/sppf/forest.go`,
`AddReduction` / `AddEpsilonReduction`).  When the looked-up parent node is
absent (`findSymNode` nil — unreachable in the source because the or-edge
insertion has already created it) the map is left unchanged. -/
def parentUpdate (f : Forest) (d : SymbolNode) (p : Option SymbolNode) : Forest :=
  match p with
  | none => f
  | some pn =>
      if f.parent.any (fun q => q.1 = d) then
        { f with parent := f.parent.map fun q => if q.1 = d then (d, pn) else q }
      else { f with parent := f.parent ++ [(d, pn)] }

/-- The child loop of `AddReduction` (`lr/sppf/forest.go`): for each child
`(seq, d)` add the and-edge `rhsnode --seq--> d` and set `d`'s parent to
the symbol node of the reduction. -/
def reductionLoop (rn : RhsNode) (sym : Symbol) (start endp : Nat) :
    Forest → List (Nat × SymbolNode) → Res Forest
  | f, [] => Res.ok f
  | f, (seq, d) :: rest => do
      let (f1, _) ← addAndEdge f rn seq d.sym d.fromPos d.toPos
      let f2 := parentUpdate f1 d (findSymNode f1 sym start endp)
      reductionLoop rn sym start endp f2 rest

/-- `Forest.AddReduction` (`lr/sppf/forest.go`): add a node for a reduced
rule.  A void RHS returns nil without touching the forest; otherwise the
shared RHS node is found or created, an or-edge and the per-child and-edges
are inserted, and the root is recorded when the symbol is `S'`. -/
def AddReduction (f : Forest) (sym : Symbol) (rule : Int) (rhs : List SymbolNode) :
    Res (Forest × Option SymbolNode) :=
  match rhs with
  | [] => Res.ok (f, none)
  | d0 :: rest => do
      let start := d0.fromPos
      let endp := ((d0 :: rest).getLast (List.cons_ne_nil _ _)).toPos
      let f1 := (addRHSNode f rule (d0 :: rest) start).1
      let rn := (addRHSNode f rule (d0 :: rest) start).2
      let f2 := addOrEdge f1 sym rn start endp
      let f3 ← reductionLoop rn sym start endp f2 ((d0 :: rest).enum)
      let symnode := findSymNode f3 sym start endp
      let f4 := if sym.name = startName then { f3 with root := symnode } else f3
      Res.ok (f4, symnode)

/-- `Forest.AddEpsilonReduction` (`lr/sppf/forest.go`): add a node for a
reduced ε-production — an RHS node signed by the position alone, an
or-edge, and a single and-edge numbered 0 to the synthetic ε terminal. -/
def AddEpsilonReduction (f : Forest) (sym : Symbol) (rule : Int) (pos : Nat) :
    Res (Forest × Option SymbolNode) := do
  let f1 := (addRHSNode f rule [] pos).1
  let rn := (addRHSNode f rule [] pos).2
  let f2 := addOrEdge f1 sym rn pos pos
  let symnode := findSymNode f2 sym pos pos
  let (f3, e) ← addAndEdge f2 rn 0 epsSymbol pos pos
  let f4 := parentUpdate f3 e.toSym symnode
  let f5 := if sym.name = startName then { f4 with root := symnode } else f4
  Res.ok (f5, symnode)

/-- `Forest.AddTerminal` (`lr/sppf/forest.go`): add (or reuse) a symbol node
for a recognized terminal spanning one input position. -/
def AddTerminal (f : Forest) (t : Symbol) (pos : Nat) : Forest × SymbolNode :=
  addSymNode f t pos (pos + 1)

/-- A call against the exported forest-building API (`lr/sppf/forest.go`). -/
inductive ForestOp where
  | addReduction (sym : Symbol) (rule : Int) (rhs : List SymbolNode)
  | addEpsilonReduction (sym : Symbol) (rule : Int) (pos : Nat)
  | addTerminal (t : Symbol) (pos : Nat)
deriving DecidableEq, Repr

/-- Run one forest-building call, discarding the returned node. -/
def runOp (f : Forest) : ForestOp → Res Forest
  | .addReduction sym rule rhs => do
      let (f1, _) ← AddReduction f sym rule rhs
      pure f1
  | .addEpsilonReduction sym rule pos => do
      let (f1, _) ← AddEpsilonReduction f sym rule pos
      pure f1
  | .addTerminal t pos => Res.ok (AddTerminal f t pos).1

/-- Run a sequence of forest-building calls. -/
def runOps (f : Forest) : List ForestOp → Res Forest
  | [] => Res.ok f
  | op :: rest => do
      let f1 ← runOp f op
      runOps f1 rest

/- ===== Tree building (`lr/earley/ruleset.go`, earley walker file) ===== -/

/-- A `RuleNode` of the derivation walker (earley walker file): grammar
symbol, extent, and the listener-computed value.  For the `TreeBuilder`
listener the value is a forest symbol node; any other value (including a
nil interface) is embedded as `none`, which makes the type assertion
`root.Value.(*sppf.SymbolNode)` in `buildTree` fail. -/
structure WalkRuleNode where
  sym : Symbol
  extentFrom : Nat
  extentTo : Nat
  value : Option SymbolNode
deriving DecidableEq, Repr

/-- `Parser.buildTree` (`lr/earley/ruleset.go`): consume the result of
`WalkDerivation` (`none` embeds the nil `*RuleNode` returned when the walk
got stuck).  The Go code evaluates `root.Value` before its `root == nil`
check, so a nil root is a nil-pointer dereference — a panic.  On a non-nil
root the forest is published only if the value is a symbol node and the
root symbol is `S'`; otherwise `p.forest` is set to nil and an error is
returned (which `Parse` ignores).  The result is the pair
`(p.forest, err != nil)`. -/
def buildTree (root : Option WalkRuleNode) (builderForest : Forest) :
    Res (Option Forest × Bool) :=
  match root with
  | none => Res.crash
  | some r =>
      match r.value with
      | none => Res.ok (none, true)
      | some _ =>
          if r.sym.name = startName then Res.ok (some builderForest, false)
          else Res.ok (none, true)

/- ===== Forest cursor (`lr/sppf/visit.go`) ===== -/

/-- A `RuleNode` of the forest walker (`lr/sppf/visit.go`): a reference to a
symbol node.  `Forest.Root()` can produce a rule node whose symbol pointer
is nil (when the root was never set), hence the option. -/
structure VisitRuleNode where
  symbol : Option SymbolNode
deriving DecidableEq, Repr

/-- `Forest.Root` (`lr/sppf/visit.go`): nil for an empty forest, otherwise a
rule node wrapping `f.root` (which may itself be a nil pointer). -/
def forestRoot (f : Forest) : Option VisitRuleNode :=
  if f.symbolNodes = [] then none
  else some { symbol := f.root }

/-- A `Cursor` (`lr/sppf/visit.go`).  The stack of child iterators is
embedded as a stack of lists of not-yet-visited children (the Go iterator
closures advance a shared cursor over the per-RHS edge set); the head of
the list is the top of the stack.  The pruner is passed to `Down`
explicitly instead of being stored, since functions stored in the state
would not affect `Up`/`Sibling` and would make cursor equality
undecidable. -/
structure Cursor where
  current : VisitRuleNode
  startNode : VisitRuleNode
  stack : List (List SymbolNode)
deriving DecidableEq, Repr

/-- `Forest.SetCursor` with a nil rule-node argument (`lr/sppf/visit.go`):
position a fresh cursor at the root; nil when the forest has no root. -/
def setCursorAt (f : Forest) (rnode : Option VisitRuleNode) : Option Cursor :=
  match rnode with
  | some rn => some { current := rn, startNode := rn, stack := [] }
  | none =>
      match forestRoot f with
      | none => none
      | some rn => some { current := rn, startNode := rn, stack := [] }

/-- `Forest.disambiguate` (`lr/sppf/visit.go`): choose an RHS alternative of
a symbol node — the only alternative if there is exactly one, else the
first alternative the pruner does not prune. -/
def disambiguate (f : Forest) (sym : Option SymbolNode)
    (pruner : SymbolNode → RhsNode → Bool) : Option RhsNode :=
  match sym with
  | none => none
  | some s =>
      match f.orEdges.filter (fun e => e.fromSym = s) with
      | [] => none
      | [e] => some e.toRHS
      | choices => (choices.find? fun e => !pruner s e.toRHS).map (·.toRHS)

/-- The children of an RHS node in and-edge insertion order
(`Forest.children`, `lr/sppf/visit.go`). -/
def childrenOf (f : Forest) (rhs : RhsNode) : List SymbolNode :=
  (f.andEdges.filter (fun e => e.fromRHS = rhs)).map (·.toSym)

/-- `Cursor.Down` (`lr/sppf/visit.go`): disambiguate the current node, push
an iterator over the chosen RHS's children and move to the first child.
The direction argument is accepted but unused by the Go child iterator
(backwards iteration is an open TODO in the source). -/
def cursorDown (f : Forest) (c : Cursor) (pruner : SymbolNode → RhsNode → Bool) :
    Cursor × Bool :=
  match disambiguate f c.current.symbol pruner with
  | none => (c, false)
  | some rhs =>
      match childrenOf f rhs with
      | [] => (c, false)
      | s :: rest =>
          ({ c with current := { symbol := some s }, stack := rest :: c.stack }, true)

/-- `Cursor.Sibling` (`lr/sppf/visit.go`): read the top child iterator with
`c.stack[len(c.stack)-1]` — on a cursor whose stack is empty (no `Down`
performed yet) this indexes position `-1` and panics. -/
def cursorSibling (c : Cursor) : Res (Cursor × Bool) :=
  match c.stack with
  | [] => Res.crash
  | top :: rest =>
      match top with
      | [] => Res.ok (c, false)
      | s :: t =>
          Res.ok ({ c with current := { symbol := some s }, stack := t :: rest }, true)

/-- `Cursor.Up` (`lr/sppf/visit.go`): if the current node has a parent entry,
move to it and pop the iterator stack with `c.stack[:len(c.stack)-1]` —
which panics when the stack is empty. -/
def cursorUp (f : Forest) (c : Cursor) : Res (Cursor × Bool) :=
  match c.current.symbol with
  | none => Res.ok (c, false)
  | some s =>
      match f.parent.find? (fun q => q.1 = s) with
      | none => Res.ok (c, false)
      | some q =>
          match c.stack with
          | [] => Res.crash
          | _ :: rest =>
              Res.ok ({ c with current := { symbol := some q.2 }, stack := rest }, true)

/- ===== SLR(1) action table (`lr/tables.go`, `lr/sparse`) ===== -/

/-- `ShiftAction` (`lr/tables.go`). -/
def ShiftAction : Int := -1

/-- `AcceptAction` (`lr/tables.go`). -/
def AcceptAction : Int := -2

/-- `sparse.DefaultNullValue` (`lr/sparse`): minimal `int32`. -/
def defaultNullValue : Int := -2147483648

/-- A cell of the sparse parse table: up to two `int32` actions
(`lr/sparse`, `intPair`). -/
structure IntPair where
  a : Int
  b : Int
deriving DecidableEq, Repr

/-- `sparse.addIntValue` (`lr/sparse`): fill the first empty slot of a cell,
overwriting the second slot when the cell is already full. -/
def addIntValue (v : IntPair) (n : Int) (nullval : Int) : IntPair :=
  if v.a = nullval then { v with a := n }
  else if v.b = nullval then { v with b := n }
  else { v with b := n }

/-- `lr.Table` over a `sparse.IntMatrix` (`lr/tables.go`, `lr/sparse`).  The
matrix stores triplets sorted by `(row, col)` with at most one triplet per
position; lookups constrain both coordinates, so the embedded state is an
association list keyed by `(row, normalized column)`. -/
structure STable where
  cells : List ((Nat × Int) × IntPair)
  nullval : Int
  mincol : Int
deriving DecidableEq, Repr

/-- The cell stored at `(i, j)`, or a null pair (`sparse.IntMatrix.Values`). -/
def cellPair (t : STable) (i : Nat) (j : Int) : IntPair :=
  match t.cells.find? (fun c => c.1 = (i, j)) with
  | some c => c.2
  | none => { a := t.nullval, b := t.nullval }

/-- `sparse.IntMatrix.Add` on the normalized column `j`: extend the existing
cell via `addIntValue`, or insert a fresh cell `(n, null)`. -/
def matrixAdd (t : STable) (i : Nat) (j : Int) (n : Int) : STable :=
  if t.cells.any (fun c => c.1 = (i, j)) then
    { t with cells := t.cells.map fun c =>
        if c.1 = (i, j) then (c.1, addIntValue c.2 n t.nullval) else c }
  else
    { t with cells := t.cells ++ [((i, j), { a := n, b := t.nullval })] }

/-- `lr.Table.add` (`lr/tables.go`): normalize the column by `mincol`,
panicking on a negative index, then `Add` into the matrix. -/
def tableAdd (t : STable) (i : Nat) (tt : Int) (val : Int) : Res STable :=
  let j := tt - t.mincol
  if j < 0 then Res.crash else Res.ok (matrixAdd t i j val)

/-- `lr.Table.Value` (`lr/tables.go`): the first entry of the cell at
`(i, tt)`, with the same negative-index panic as `add`. -/
def tableValue (t : STable) (i : Nat) (tt : Int) : Res Int :=
  let j := tt - t.mincol
  if j < 0 then Res.crash else Res.ok (cellPair t i j).a

/-- `lr.Table.Values` (`lr/tables.go`): both entries of the cell at `(i, tt)`. -/
def tableValues (t : STable) (i : Nat) (tt : Int) : Res IntPair :=
  let j := tt - t.mincol
  if j < 0 then Res.crash else Res.ok (cellPair t i j)

/-- Total accessor for stating properties of a finished table: the cell at
row `i` and token-type column `tt` (column normalization applied). -/
def lookupAction (t : STable) (i : Nat) (tt : Int) : IntPair :=
  cellPair t i (tt - t.mincol)

/-- Modelled from the spec: `Symbol.TokenType()` (`lr/grammar.go` is absent).
Terminals carry their application-defined token type as their value
(spec §3 "Symbol"; the Earley scanner compares `a.Value == tokval` and the
GOTO builder uses `TokType(e.label.Value)`), so the token type of a symbol
is its value. -/
def tokenType (s : Symbol) : Int := s.value

/-- `pT` (`lr/tables.go`): accept for the EOF terminal, shift otherwise. -/
def pT (terminal : Symbol) : Int :=
  if tokenType terminal = scannerEOF then AcceptAction else ShiftAction

/-- Modelled from the spec: `Grammar.matchesRHS` (`lr/grammar.go` is absent):
find the rule with the given LHS whose RHS equals the given symbol list
and return it with its index; rules are numbered by insertion order
(spec §3 "Rule"). -/
def matchesRHS (g : Grammar) (lhs : Symbol) (syms : List Symbol) : Option (Rule × Int) :=
  (g.rules.find? fun r => r.lhs = lhs ∧ r.rhs = syms).map fun r => (r, (r.serial : Int))

/-- Intermediate state of the action-table generator: the table plus the
`hasConflicts` flag (`lr/tables.go`, `buildActionTable`). -/
structure ActionState where
  tbl : STable
  conflicts : Bool
deriving DecidableEq, Repr

/-- The shift/accept branch of `buildActionTable` (`lr/tables.go`, SLR(1)
case): compute `pT`, then add the action — unless the cell already holds a
first entry which is a shift (a "double shift", left alone); any other
existing first entry marks a conflict. -/
def processShift (st : ActionState) (stateID : Nat) (a : Symbol) : Res ActionState := do
  let P := pT a
  let a1 ← tableValue st.tbl stateID (tokenType a)
  if a1 ≠ st.tbl.nullval then
    if a1 = ShiftAction then pure st
    else do
      let t ← tableAdd st.tbl stateID (tokenType a) P
      pure { tbl := t, conflicts := true }
  else do
    let t ← tableAdd st.tbl stateID (tokenType a) P
    pure { st with tbl := t }

/-- One lookahead of the reduce branch of `buildActionTable` (`lr/tables.go`,
SLR(1) case): any existing entry marks a conflict; the rule index is added
to the cell. -/
def reduceStep (stateID : Nat) (inx : Int) (st : ActionState) (la : Int) :
    Res ActionState := do
  let p ← tableValues st.tbl stateID la
  let conf := st.conflicts || (p.a ≠ st.tbl.nullval || p.b ≠ st.tbl.nullval)
  let t ← tableAdd st.tbl stateID la inx
  pure { tbl := t, conflicts := conf }

/-- Processing of a single item by `buildActionTable` (`lr/tables.go`, SLR(1)
case): a terminal after the dot yields a shift/accept entry; a reducible
item yields, via `matchesRHS` and the FOLLOW set of the matched rule's
LHS, one reduce entry per lookahead. -/
def processItem (g : Grammar) (follow : Symbol → List Int) (stateID : Nat)
    (st : ActionState) (i : Item) : Res ActionState := do
  let A := peekSymbol i
  let pfx := prefixSyms i
  let st1 ←
    match A with
    | some a => if a.terminal then processShift st stateID a else pure st
    | none => pure st
  match A with
  | some _ => pure st1
  | none =>
      match matchesRHS g i.rule.lhs pfx with
      | some (r, inx) => (follow r.lhs).foldlM (reduceStep stateID inx) st1
      | none => pure st1

/-- A CFSM state as consumed by the table generator: numeric id plus its
item set in insertion order (`lr/tables.go`, `CFSMState`). -/
structure CFSMStateE where
  id : Nat
  items : List Item
deriving DecidableEq, Repr

/-- `TableGenerator.BuildSLR1ActionTable` (`lr/tables.go`): determine the
column range from the grammar's symbols, then process every item of every
state.  FOLLOW sets are supplied as a function, mirroring the analyzer
(`lr/analysis.go` is absent from the sources). -/
def BuildSLR1ActionTable (g : Grammar) (follow : Symbol → List Int)
    (states : List CFSMStateE) : Res ActionState :=
  let mm := g.symbols.foldl
    (fun (p : Int × Int) A =>
      if tokenType A > p.2 then (p.1, tokenType A)
      else if tokenType A < p.1 then (tokenType A, p.2)
      else p)
    (0, 0)
  let t0 : STable := { cells := [], nullval := defaultNullValue, mincol := mm.1 }
  states.foldlM
    (fun st s => s.items.foldlM (processItem g follow s.id) st)
    { tbl := t0, conflicts := false }

/-- Functorial action on `Res`, for stating results about runs. -/
def Res.map {α β : Type} (g : α → β) : Res α → Res β
  | .crash => .crash
  | .ok a => .ok (g a)

/- ===== Concrete instances used by the claim theorems ===== -/

/-- A non-terminal whose builder-assigned value collides with an input token
type (values are positive and monotone for non-terminals, token types are
application-defined, so nothing separates the two ranges). -/
def c2nonterm : Symbol := { name := 43, value := 100, terminal := false }

/-- A rule `S → X` with the colliding non-terminal right of the dot. -/
def c2rule : Rule :=
  { lhs := { name := 46, value := 105, terminal := false },
    rhs := [c2nonterm], serial := 9 }

/-- An item `[S → •X, 0]` whose dot precedes the non-terminal `X`. -/
def c2item : Item := { rule := c2rule, dot := 0, origin := 0 }

/- ===== Shared lemmas ===== -/

theorem mem_setAdd {S : List Item} {x y : Item} :
    x ∈ setAdd S y ↔ x ∈ S ∨ x = y := by
  unfold setAdd
  by_cases h : y ∈ S
  · simp only [if_pos h]
    constructor
    · exact Or.inl
    · rintro (hx | rfl)
      · exact hx
      · exact h
  · simp [if_neg h]

theorem advance_of_peek {i : Item} {a : Symbol} (h : peekSymbol i = some a) :
    advance i = some (advanced i) := by
  unfold peekSymbol at h
  have hlt : i.dot < i.rule.rhs.length := by
    by_contra hge
    push_neg at hge
    rw [List.get?_eq_none.mpr hge] at h
    exact absurd h (by simp)
  unfold advance advanced
  rw [if_pos hlt]

/- ===== C1 ===== -/

/-- C1.  After the Earley parser's `Parse` loop has processed the EOF token,
the acceptance bit it returns is `checkAccept` of the final state set
(`lr/earley/ruleset.go`, `Parse` / `checkAccept`), and `checkAccept` is
true iff the final set holds a reducible item whose rule is rule 0 — given
the grammar invariant that rule 0, `S' → S`, is the only rule with LHS `S'`
(spec §3) and that every item in a state set carries a rule of the
grammar. -/
theorem checkAccept_true_iff_rule0_reducible (g : Grammar) (S : List Item)
    (huniq : ∀ r ∈ g.rules, r.lhs = g.rule0.lhs → r = g.rule0)
    (hS : ∀ it ∈ S, it.rule ∈ g.rules) :
    checkAccept g S = true ↔ ∃ it ∈ S, peekSymbol it = none ∧ it.rule = g.rule0 := by
  unfold checkAccept
  rw [List.any_eq_true]
  constructor
  · rintro ⟨it, hit, hcond⟩
    rw [Bool.and_eq_true, beq_iff_eq, beq_iff_eq] at hcond
    exact ⟨it, hit, hcond.1, huniq _ (hS it hit) hcond.2⟩
  · rintro ⟨it, hit, hpeek, hrule⟩
    refine ⟨it, hit, ?_⟩
    rw [Bool.and_eq_true, beq_iff_eq, beq_iff_eq]
    exact ⟨hpeek, by rw [hrule]⟩

/-- A concrete grammar for exercising `checkAccept`: `S' → S`, `S → a`. -/
def c1g : Grammar :=
  { rule0 := { lhs := { name := startName, value := 50, terminal := false },
               rhs := [{ name := 2, value := 51, terminal := false }], serial := 0 },
    moreRules := [{ lhs := { name := 2, value := 51, terminal := false },
                    rhs := [{ name := 3, value := 5, terminal := true }], serial := 1 }],
    symbols := [] }

/-- A final state set holding the completed start item `[S' → S•, 0]`. -/
def c1S : List Item := [{ rule := c1g.rule0, dot := 1, origin := 0 }]

/-- Witness for C1 at a concrete accepting final state. -/
theorem checkAccept_true_iff_rule0_reducible_wit :
    checkAccept c1g c1S = true :=
  (checkAccept_true_iff_rule0_reducible c1g c1S (by decide) (by decide)).mpr
    ⟨{ rule := c1g.rule0, dot := 1, origin := 0 }, by decide, by decide, by decide⟩

/- ===== C2 ===== -/

/-- C2 counterexample.  The scan step advances an item whose dot precedes a
NON-terminal whenever that symbol's value equals the token value
(`lr/earley/ruleset.go`, `scan` compares only `a.Value == tokval`): the
item `[S → •X, 0]` with non-terminal `X` of value 100 is inserted in
advanced form into `S_{i+1}` on reading a token of type 100, contradicting
the claim that items before non-terminals are never advanced by
scanning. -/
theorem scan_advances_item_before_nonterminal :
    scan [] c2item 100 = [advanced c2item] ∧
    peekSymbol c2item = some c2nonterm ∧
    c2nonterm.terminal = false := by decide

/-- C2 as amended.  The scan step inserts exactly the advanced item into
`S_{i+1}`, and it does so iff the symbol right of the dot exists and its
value equals the current token value — with no test that the symbol is a
terminal (`lr/earley/ruleset.go`, `scan`).  When no non-terminal value
coincides with an input token type this coincides with the original
claim. -/
theorem scan_mem_iff (S1 : List Item) (item : Item) (tokval : Int) (x : Item) :
    x ∈ scan S1 item tokval ↔
      x ∈ S1 ∨ ∃ a, peekSymbol item = some a ∧ a.value = tokval ∧ x = advanced item := by
  unfold scan
  cases hpeek : peekSymbol item with
  | none => simp [hpeek]
  | some a =>
      dsimp only
      by_cases hv : a.value = tokval
      · rw [if_pos hv, advance_of_peek hpeek]
        rw [mem_setAdd]
        constructor
        · rintro (hx | rfl)
          · exact Or.inl hx
          · exact Or.inr ⟨a, rfl, hv, rfl⟩
        · rintro (hx | ⟨a', ha', _, rfl⟩)
          · exact Or.inl hx
          · exact Or.inr rfl
      · rw [if_neg hv]
        constructor
        · exact Or.inl
        · rintro (hx | ⟨a', ha', hv', _⟩)
          · exact hx
          · cases ha'
            exact absurd hv' hv

/- ===== C3 ===== -/

/-- C3.  When the backward derivation walk finds no viable child completer it
returns a nil root (`walk` returns nil through `stuck`), and `buildTree`
then dereferences `root.Value` on that nil pointer *before* its
`root == nil` check — a panic, not a graceful abandonment
(`lr/earley/ruleset.go`, `buildTree`).  In addition, `stuck` itself panics
whenever the configuration flag `panic-on-parser-stuck` is set.  So the
parse does not return with the acceptance bit and a nil forest; it crashes
inside `Parse`. -/
theorem buildTree_crashes_on_nil_walk_root :
    (∀ f : Forest, buildTree none f = Res.crash) ∧ stuck true = Res.crash :=
  ⟨fun _ => rfl, rfl⟩

/- ===== C8 ===== -/

/-- A small forest `S' → A → a` built through the exported API, used to set
up concrete cursors. -/
def c8forest : Res Forest :=
  runOps newForest
    [.addTerminal { name := 30, value := 5, terminal := true } 0,
     .addReduction { name := 31, value := 103, terminal := false } 2
       [{ sym := { name := 30, value := 5, terminal := true }, fromPos := 0, toPos := 1 }],
     .addReduction { name := startName, value := 104, terminal := false } 0
       [{ sym := { name := 31, value := 103, terminal := false }, fromPos := 0, toPos := 1 }]]

/-- The symbol node for `A (0…1)` of the C8 forest, as a cursor position. -/
def c8nodeA : SymbolNode :=
  { sym := { name := 31, value := 103, terminal := false }, fromPos := 0, toPos := 1 }

/-- C8.  `Sibling` on a cursor on which `Down` has never been called indexes
`c.stack[len(c.stack)-1]` on an empty stack and panics, and `Up` on a node
that has a parent entry but an empty iterator stack slices
`c.stack[:len(c.stack)-1]` and panics (`lr/sppf/visit.go`) — neither
failure is surfaced as a false return value. -/
theorem cursor_sibling_up_crash_on_empty_stack :
    Res.map (fun f => (setCursorAt f none).map fun c => (cursorSibling c).isCrash)
      c8forest = Res.ok (some true) ∧
    Res.map (fun f =>
        (setCursorAt f (some { symbol := some c8nodeA })).map
          fun c => (cursorUp f c).isCrash)
      c8forest = Res.ok (some true) := by decide

/- ===== C9 ===== -/

/-- First input token of the C9 run. -/
def c9a : Token := { tokType := 3, lex := 100 }

/-- Second input token of the C9 run. -/
def c9b : Token := { tokType := 3, lex := 101 }

/-- The EOF token of the C9 run. -/
def c9eof : Token := { tokType := -1, lex := 102 }

/-- C9.  For a stored-token run that consumed the two input tokens `a, b`
(buffer `[nil, a, b, eof]`), `TokenAt(1)` returns the second token `b`
instead of the first, `TokenAt(3)` — an argument outside the valid range —
panics with an index out of range instead of returning nil (the guard
checks `pos < len(tokens)` but indexes `tokens[pos+1]`), and `TokenAt(0)`
returns the first token instead of nil. -/
theorem tokenAt_off_by_one_and_out_of_range :
    tokenAt (parseTokenBuffer [c9a, c9b, c9eof]) 1 = Res.ok (some c9b) ∧
    c9b ≠ c9a ∧
    tokenAt (parseTokenBuffer [c9a, c9b, c9eof]) 3 = Res.crash ∧
    tokenAt (parseTokenBuffer [c9a, c9b, c9eof]) 0 = Res.ok (some c9a) := by decide

/- ===== C10 ===== -/

theorem foldl_applyOption_mode :
    ∀ (opts : List ParserOption) (m : Nat), m = 2 ∨ m = 6 →
      opts.foldl applyOption m = 2 ∨ opts.foldl applyOption m = 6 := by
  intro opts
  induction opts with
  | nil => intro m hm; simpa using hm
  | cons o rest ih =>
      intro m hm
      rw [List.foldl_cons]
      apply ih
      rcases hm with h | h <;> subst h <;>
        cases o <;> rename_i b <;> cases b <;> decide

/-- C10.  Every parser built by `earley.NewParser` has token storing enabled,
regardless of the options passed: the mode starts at `optionStoreTokens`
and the option functions `StoreTokens`/`GenerateTree` test the
generate-tree bit and can only OR bits into the mode, never clear them
(`lr/earley/ruleset.go`).  Consequently `setupNextState` appends every
input token to the token buffer. -/
theorem newParser_always_stores_tokens :
    ∀ opts : List ParserOption,
      hasmode (newParserMode opts) optionStoreTokens = true ∧
      ∀ (tokens : List (Option Token)) (t : Token),
        setupNextStateTokens (newParserMode opts) tokens t = tokens ++ [some t] := by
  intro opts
  have h : newParserMode opts = 2 ∨ newParserMode opts = 6 :=
    foldl_applyOption_mode opts 2 (Or.inl rfl)
  have hb : hasmode (newParserMode opts) optionStoreTokens = true := by
    rcases h with h | h <;> rw [h] <;> decide
  refine ⟨hb, ?_⟩
  intro tokens t
  unfold setupNextStateTokens
  rw [hb]
  simp

/- ===== C4 ===== -/

/-- The lexicographic preference realized by the walk's selection loop:
smaller origin first, then smaller rule serial. -/
def lexLE (b c : Item) : Prop :=
  b.origin < c.origin ∨ (b.origin = c.origin ∧ b.rule.serial ≤ c.rule.serial)

theorem lexLE_refl (b : Item) : lexLE b b :=
  Or.inr ⟨rfl, le_refl _⟩

theorem lexLE_trans {a b c : Item} (h1 : lexLE a b) (h2 : lexLE b c) : lexLE a c := by
  rcases h1 with h1 | ⟨h1, h1s⟩ <;> rcases h2 with h2 | ⟨h2, h2s⟩
  · exact Or.inl (h1.trans h2)
  · exact Or.inl (h2 ▸ h1)
  · exact Or.inl (h1 ▸ h2)
  · exact Or.inr ⟨h1.trans h2, h1s.trans h2s⟩

/-- A candidate the selection loop may pick: its rule has not been tried for
this span, and its origin does not lie left of the parent item's origin. -/
def eligC (item : Item) (trys : List Rule) (c : Item) : Prop :=
  c.rule ∉ trys ∧ item.origin ≤ c.origin

instance (item : Item) (trys : List Rule) (c : Item) : Decidable (eligC item trys c) := by
  unfold eligC; infer_instance

theorem walkSelectStep_skip {item : Item} {trys : List Rule} {acc : Option Item}
    {c : Item} (h : ¬ eligC item trys c) : walkSelectStep item trys acc c = acc := by
  unfold walkSelectStep
  unfold eligC at h
  push_neg at h
  by_cases ht : c.rule ∈ trys
  · rw [if_pos ht]
  · rw [if_neg ht, if_neg (not_le.mpr (h ht))]

theorem foldl_walkSelect (item : Item) (trys : List Rule) :
    ∀ (R : List Item) (acc : Option Item),
      (R.foldl (walkSelectStep item trys) acc = none ↔
        (acc = none ∧ ∀ c ∈ R, ¬ eligC item trys c)) ∧
      (∀ b, R.foldl (walkSelectStep item trys) acc = some b →
        ((b ∈ R ∧ eligC item trys b) ∨ acc = some b) ∧
        (∀ c ∈ R, eligC item trys c → lexLE b c) ∧
        (∀ a0, acc = some a0 → lexLE b a0)) := by
  intro R
  induction R with
  | nil =>
      intro acc
      constructor
      · simp
      · intro b hb
        simp only [List.foldl_nil] at hb
        refine ⟨Or.inr hb, by simp, ?_⟩
        intro a0 ha0
        rw [hb] at ha0
        cases ha0
        exact lexLE_refl b
  | cons c R ih =>
      intro acc
      rw [List.foldl_cons]
      by_cases hel : eligC item trys c
      · -- the candidate is eligible: the accumulator is refined
        have hstep : ∀ (b1 : Item), walkSelectStep item trys acc c = some b1 →
            (b1 = c ∨ acc = some b1) ∧ lexLE b1 c ∧
            (∀ a0, acc = some a0 → lexLE b1 a0) := by
          intro b1 hb1
          unfold walkSelectStep at hb1
          rw [if_neg hel.1, if_pos hel.2] at hb1
          cases acc with
          | none =>
              cases hb1
              exact ⟨Or.inl rfl, lexLE_refl _, by intro a0 h; cases h⟩
          | some b0 =>
              dsimp only at hb1
              by_cases h1 : c.origin < b0.origin
              · rw [if_pos h1] at hb1
                cases hb1
                refine ⟨Or.inl rfl, lexLE_refl _, ?_⟩
                intro a0 ha0
                cases ha0
                exact Or.inl h1
              · rw [if_neg h1] at hb1
                by_cases h2 : c.origin = b0.origin ∧ c.rule.serial < b0.rule.serial
                · rw [if_pos h2] at hb1
                  cases hb1
                  refine ⟨Or.inl rfl, lexLE_refl _, ?_⟩
                  intro a0 ha0
                  cases ha0
                  exact Or.inr ⟨h2.1, le_of_lt h2.2⟩
                · rw [if_neg h2] at hb1
                  cases hb1
                  refine ⟨Or.inr rfl, ?_, ?_⟩
                  · push_neg at h1 h2
                    rcases lt_or_eq_of_le h1 with h | h
                    · exact Or.inl h
                    · exact Or.inr ⟨h, h2 h.symm⟩
                  · intro a0 ha0
                    cases ha0
                    exact lexLE_refl _
        have hsome : ∃ b1, walkSelectStep item trys acc c = some b1 := by
          unfold walkSelectStep
          rw [if_neg hel.1, if_pos hel.2]
          cases acc with
          | none => exact ⟨c, rfl⟩
          | some b0 =>
              dsimp only
              by_cases h1 : c.origin < b0.origin
              · rw [if_pos h1]; exact ⟨c, rfl⟩
              · rw [if_neg h1]
                by_cases h2 : c.origin = b0.origin ∧ c.rule.serial < b0.rule.serial
                · rw [if_pos h2]; exact ⟨c, rfl⟩
                · rw [if_neg h2]; exact ⟨b0, rfl⟩
        obtain ⟨b1, hb1⟩ := hsome
        rw [hb1]
        obtain ⟨hb1src, hb1c, hb1acc⟩ := hstep b1 hb1
        constructor
        · rw [(ih (some b1)).1]
          constructor
          · rintro ⟨h, -⟩; cases h
          · rintro ⟨-, hall⟩
            exact absurd hel (hall c (List.mem_cons_self _ _))
        · intro b hb
          obtain ⟨hsrc, hmin, haccle⟩ := (ih (some b1)).2 b hb
          have hle_b1 : lexLE b b1 := haccle b1 rfl
          constructor
          · rcases hsrc with ⟨hmem, helb⟩ | hbb1
            · exact Or.inl ⟨List.mem_cons_of_mem _ hmem, helb⟩
            · cases hbb1
              rcases hb1src with h | h
              · subst h
                exact Or.inl ⟨List.mem_cons_self _ _, hel⟩
              · exact Or.inr h
          · constructor
            · intro c' hc' helc'
              rcases List.mem_cons.mp hc' with rfl | hc'
              · exact lexLE_trans hle_b1 hb1c
              · exact hmin c' hc' helc'
            · intro a0 ha0
              exact lexLE_trans hle_b1 (hb1acc a0 ha0)
      · -- ineligible candidate: the accumulator is unchanged
        rw [walkSelectStep_skip hel]
        constructor
        · rw [(ih acc).1]
          constructor
          · rintro ⟨ha, hall⟩
            refine ⟨ha, ?_⟩
            intro c' hc'
            rcases List.mem_cons.mp hc' with rfl | hc'
            · exact hel
            · exact hall c' hc'
          · rintro ⟨ha, hall⟩
            exact ⟨ha, fun c' hc' => hall c' (List.mem_cons_of_mem _ hc')⟩
        · intro b hb
          obtain ⟨hsrc, hmin, haccle⟩ := (ih acc).2 b hb
          refine ⟨?_, ?_, haccle⟩
          · rcases hsrc with ⟨hmem, helb⟩ | hacc
            · exact Or.inl ⟨List.mem_cons_of_mem _ hmem, helb⟩
            · exact Or.inr hacc
          · intro c' hc' helc'
            rcases List.mem_cons.mp hc' with rfl | hc'
            · exact absurd helc' hel
            · exact hmin c' hc' helc'

/-- First candidate of the C4 instance: a completed one-symbol rule with
serial 1, origin 0. -/
def c4cand1 : Item :=
  { rule := { lhs := { name := 43, value := 100, terminal := false },
              rhs := [{ name := 41, value := 6, terminal := true }], serial := 1 },
    dot := 1, origin := 0 }

/-- Second candidate of the C4 instance: a completed three-symbol rule (the
longest rule) with serial 2, origin 0. -/
def c4cand2 : Item :=
  { rule := { lhs := { name := 43, value := 100, terminal := false },
              rhs := [{ name := 41, value := 6, terminal := true },
                      { name := 42, value := 7, terminal := true },
                      { name := 40, value := 5, terminal := true }], serial := 2 },
    dot := 3, origin := 0 }

/-- The parent item whose child position is being resolved. -/
def c4item : Item :=
  { rule := { lhs := { name := 46, value := 105, terminal := false },
              rhs := [{ name := 43, value := 100, terminal := false }], serial := 4 },
    dot := 1, origin := 0 }

/-- C4 counterexample.  With two viable completed candidates of equal origin,
the selection loop picks the candidate with the *lower rule serial*
(`c4cand1`), not the one with the longest rule (`c4cand2`, three symbols
versus one): "longest rule first" is not the implemented order — the
length comparison is commented out in the source. -/
theorem walkSelect_not_longest_rule_first :
    walkSelectCompleter c4item [] [c4cand1, c4cand2] = some c4cand1 ∧
    c4cand1.rule.rhs.length < c4cand2.rule.rhs.length ∧
    peekSymbol c4cand1 = none ∧ peekSymbol c4cand2 = none ∧
    c4cand2.rule ∉ ([] : List Rule) ∧ c4item.origin ≤ c4cand2.origin := by decide

/-- C4 as amended.  When more than one completed item is viable, `walk`
selects deterministically the candidate that is lexicographically minimal
by (origin, rule serial) — i.e. smallest origin (longest matched extent)
first, then lowest rule serial — among the candidates whose rule is not in
`trys` and whose origin is not left of the parent item's origin; it
selects nothing iff no candidate is viable. -/
theorem walkSelect_selects_min_origin_serial (item : Item) (trys : List Rule)
    (R : List Item) :
    (walkSelectCompleter item trys R = none ↔
      ∀ c ∈ R, c.rule ∈ trys ∨ ¬ item.origin ≤ c.origin) ∧
    (∀ b, walkSelectCompleter item trys R = some b →
      (b ∈ R ∧ b.rule ∉ trys ∧ item.origin ≤ b.origin) ∧
      ∀ c ∈ R, c.rule ∉ trys → item.origin ≤ c.origin →
        b.origin < c.origin ∨ (b.origin = c.origin ∧ b.rule.serial ≤ c.rule.serial)) := by
  have h := foldl_walkSelect item trys R none
  unfold walkSelectCompleter
  constructor
  · rw [h.1]
    constructor
    · rintro ⟨-, hall⟩ c hc
      have := hall c hc
      unfold eligC at this
      push_neg at this
      by_cases ht : c.rule ∈ trys
      · exact Or.inl ht
      · exact Or.inr (not_le.mpr (this ht))
    · intro hall
      refine ⟨rfl, ?_⟩
      intro c hc
      unfold eligC
      rcases hall c hc with h1 | h1
      · rintro ⟨h2, -⟩; exact h2 h1
      · rintro ⟨-, h2⟩; exact h1 h2
  · intro b hb
    obtain ⟨hsrc, hmin, -⟩ := h.2 b hb
    rcases hsrc with ⟨hmem, helb⟩ | hacc
    · exact ⟨⟨hmem, helb.1, helb.2⟩, fun c hc h1 h2 => hmin c hc ⟨h1, h2⟩⟩
    · cases hacc

/-- Witness for C4 at the concrete instance: the selected candidate is a
member of the candidate set, viable, and lexicographically minimal. -/
theorem walkSelect_selects_min_origin_serial_wit :
    c4cand1 ∈ [c4cand1, c4cand2] ∧ c4cand1.rule ∉ ([] : List Rule) ∧
      c4item.origin ≤ c4cand1.origin :=
  ((walkSelect_selects_min_origin_serial c4item [] [c4cand1, c4cand2]).2
    c4cand1 (by decide)).1

/- ===== Structural lemmas about the forest operations ===== -/

theorem findSymNode_some {f : Forest} {s : Symbol} {a b : Nat} {sn : SymbolNode}
    (h : findSymNode f s a b = some sn) :
    sn = { sym := s, fromPos := a, toPos := b } ∧ sn ∈ f.symbolNodes := by
  unfold findSymNode at h
  have hmem := List.mem_of_find?_eq_some h
  have hp := List.find?_some h
  rw [decide_eq_true_eq] at hp
  obtain ⟨h1, h2, h3⟩ := hp
  cases sn
  simp_all

theorem addSymNode_rhsNodes (f : Forest) (s : Symbol) (a b : Nat) :
    ((addSymNode f s a b).1).rhsNodes = f.rhsNodes := by
  unfold addSymNode
  cases findSymNode f s a b <;> rfl

theorem addSymNode_andEdges (f : Forest) (s : Symbol) (a b : Nat) :
    ((addSymNode f s a b).1).andEdges = f.andEdges := by
  unfold addSymNode
  cases findSymNode f s a b <;> rfl

theorem addSymNode_snd (f : Forest) (s : Symbol) (a b : Nat) :
    (addSymNode f s a b).2 = { sym := s, fromPos := a, toPos := b } := by
  unfold addSymNode
  cases h : findSymNode f s a b with
  | none => rfl
  | some sn => exact (findSymNode_some h).1

theorem findRHSNode_some {f : Forest} {rule : Int} {rhs : List SymbolNode}
    {start : Nat} {n : RhsNode} (h : findRHSNode f rule rhs start = some n) :
    n ∈ f.rhsNodes ∧ n.start = start ∧ n.rule = rule ∧
      n.sigma = rhsSignature rhs start := by
  unfold findRHSNode at h
  have hmem := List.mem_of_find?_eq_some h
  have hp := List.find?_some h
  rw [decide_eq_true_eq] at hp
  exact ⟨hmem, hp⟩

theorem addRHSNode_spec (f : Forest) (rule : Int) (rhs : List SymbolNode) (start : Nat) :
    (addRHSNode f rule rhs start).2 ∈ ((addRHSNode f rule rhs start).1).rhsNodes ∧
    (addRHSNode f rule rhs start).2.start = start ∧
    (addRHSNode f rule rhs start).2.rule = rule ∧
    (addRHSNode f rule rhs start).2.sigma = rhsSignature rhs start := by
  unfold addRHSNode
  cases h : findRHSNode f rule rhs start with
  | some n =>
      obtain ⟨hmem, h1, h2, h3⟩ := findRHSNode_some h
      exact ⟨hmem, h1, h2, h3⟩
  | none => simp

theorem addRHSNode_of_found {f : Forest} {rule : Int} {rhs : List SymbolNode}
    {start : Nat} {n : RhsNode} (h : findRHSNode f rule rhs start = some n) :
    addRHSNode f rule rhs start = (f, n) := by
  unfold addRHSNode
  rw [h]

theorem findRHSNode_isSome_of_mem {f : Forest} {rule : Int} {rhs : List SymbolNode}
    {start : Nat} {n : RhsNode} (hmem : n ∈ f.rhsNodes) (h1 : n.start = start)
    (h2 : n.rule = rule) (h3 : n.sigma = rhsSignature rhs start) :
    ∃ m, findRHSNode f rule rhs start = some m := by
  cases h : findRHSNode f rule rhs start with
  | some m => exact ⟨m, rfl⟩
  | none =>
      unfold findRHSNode at h
      have := List.find?_eq_none.mp h n hmem
      rw [decide_eq_true_eq] at this
      exact absurd ⟨h1, h2, h3⟩ this

theorem addRHSNode_andEdges (f : Forest) (rule : Int) (rhs : List SymbolNode)
    (start : Nat) : ((addRHSNode f rule rhs start).1).andEdges = f.andEdges := by
  unfold addRHSNode
  cases findRHSNode f rule rhs start <;> rfl

theorem bind_ok {α β : Type} {x : Res α} {g : α → Res β} {y : β}
    (h : (x >>= g) = Res.ok y) : ∃ a, x = Res.ok a ∧ g a = Res.ok y := by
  cases x with
  | crash => exact Res.noConfusion h
  | ok a => exact ⟨a, rfl, h⟩

theorem addOrEdge_rhsNodes (f : Forest) (sym : Symbol) (rhs : RhsNode) (a b : Nat) :
    (addOrEdge f sym rhs a b).rhsNodes = f.rhsNodes := by
  simp only [addOrEdge]
  split <;> simp [addSymNode_rhsNodes]

theorem addOrEdge_andEdges (f : Forest) (sym : Symbol) (rhs : RhsNode) (a b : Nat) :
    (addOrEdge f sym rhs a b).andEdges = f.andEdges := by
  simp only [addOrEdge]
  split <;> simp [addSymNode_andEdges]

theorem parentUpdate_rhsNodes (f : Forest) (d : SymbolNode) (p : Option SymbolNode) :
    (parentUpdate f d p).rhsNodes = f.rhsNodes := by
  unfold parentUpdate
  cases p with
  | none => rfl
  | some pn =>
      by_cases h : f.parent.any (fun q => q.1 = d) <;> simp [h]

theorem parentUpdate_andEdges (f : Forest) (d : SymbolNode) (p : Option SymbolNode) :
    (parentUpdate f d p).andEdges = f.andEdges := by
  unfold parentUpdate
  cases p with
  | none => rfl
  | some pn =>
      by_cases h : f.parent.any (fun q => q.1 = d) <;> simp [h]

theorem findAndEdge_some {f : Forest} {rhs : RhsNode} {sn : SymbolNode} {e : AndEdge}
    (h : findAndEdge f rhs sn = some e) :
    e ∈ f.andEdges ∧ e.fromRHS = rhs ∧ e.toSym = sn := by
  unfold findAndEdge at h
  have hmem := List.mem_of_find?_eq_some h
  have hp := List.find?_some h
  rw [decide_eq_true_eq] at hp
  exact ⟨hmem, hp⟩

theorem addAndEdge_ok {f : Forest} {rhs : RhsNode} {seq : Nat} {sym : Symbol}
    {a b : Nat} {f' : Forest} {e : AndEdge}
    (h : addAndEdge f rhs seq sym a b = Res.ok (f', e)) :
    e.fromRHS = rhs ∧ e.seq = seq ∧
    e.toSym = { sym := sym, fromPos := a, toPos := b } ∧
    e ∈ f'.andEdges ∧
    (f'.andEdges = f.andEdges ∨ f'.andEdges = f.andEdges ++ [e]) ∧
    f'.rhsNodes = f.rhsNodes := by
  simp only [addAndEdge] at h
  cases hf : findAndEdge (addSymNode f sym a b).1 rhs (addSymNode f sym a b).2 with
  | none =>
      rw [hf] at h
      dsimp only at h
      cases h
      refine ⟨rfl, rfl, addSymNode_snd f sym a b, ?_, ?_, addSymNode_rhsNodes f sym a b⟩
      · simp
      · right
        rw [addSymNode_andEdges]
  | some e0 =>
      rw [hf] at h
      dsimp only at h
      by_cases hs : e0.seq ≠ seq
      · rw [if_pos hs] at h
        cases h
      · rw [if_neg hs] at h
        cases h
        push_neg at hs
        obtain ⟨hmem, hfrom, hto⟩ := findAndEdge_some hf
        rw [addSymNode_andEdges] at hmem
        refine ⟨hfrom, hs, ?_, ?_, Or.inl (addSymNode_andEdges f sym a b),
          addSymNode_rhsNodes f sym a b⟩
        · rw [hto, addSymNode_snd]
        · rw [addSymNode_andEdges]
          exact hmem

theorem reductionLoop_rhsNodes {rn : RhsNode} {sym : Symbol} {s e : Nat} :
    ∀ {L : List (Nat × SymbolNode)} {f f' : Forest},
      reductionLoop rn sym s e f L = Res.ok f' → f'.rhsNodes = f.rhsNodes := by
  intro L
  induction L with
  | nil =>
      intro f f' h
      unfold reductionLoop at h
      cases h
      rfl
  | cons hd tl ih =>
      intro f f' h
      rcases hd with ⟨sq, d⟩
      unfold reductionLoop at h
      obtain ⟨pr, hstep, hrest⟩ := bind_ok h
      rcases pr with ⟨f1, e1⟩
      dsimp only at hrest
      have hrec := ih hrest
      rw [hrec, parentUpdate_rhsNodes, (addAndEdge_ok hstep).2.2.2.2.2]

/-- The RHS-node store after a successful `AddReduction` is exactly the store
after the initial `addRHSNode` step: none of the edge or parent insertions
touch it. -/
theorem AddReduction_rhsNodes {f : Forest} {sym : Symbol} {rule : Int}
    {d0 : SymbolNode} {t : List SymbolNode} {f' : Forest} {n : Option SymbolNode}
    (h : AddReduction f sym rule (d0 :: t) = Res.ok (f', n)) :
    f'.rhsNodes = ((addRHSNode f rule (d0 :: t) d0.fromPos).1).rhsNodes := by
  unfold AddReduction at h
  obtain ⟨f3, hloop, hrest⟩ := bind_ok h
  dsimp only at hrest
  cases hrest
  have h3 := reductionLoop_rhsNodes hloop
  by_cases hn : sym.name = startName <;>
    simp [hn, h3, addOrEdge_rhsNodes]

/- ===== C5 ===== -/

/-- LHS symbol of the two colliding reductions. -/
def c5sym : Symbol := { name := 20, value := 100, terminal := false }

/-- First child list: terminal `x` (value 7) spanning `(0…1)`. -/
def c5child1 : SymbolNode :=
  { sym := { name := 10, value := 7, terminal := true }, fromPos := 0, toPos := 1 }

/-- Second child list: a different terminal `y` with the same value 7,
spanning `(0…1)` — a distinct `(symbol, from)` pair with an identical
signature contribution. -/
def c5child2 : SymbolNode :=
  { sym := { name := 11, value := 7, terminal := true }, fromPos := 0, toPos := 1 }

/-- C5 counterexample.  Two `AddReduction` calls with equal rule number and
start position but distinct children (different symbols) whose signatures
coincide produce ONE shared RHS-node, not two: `findRHS` compares only
`(start, rule, Σ)` and never the children, so an accidental signature
collision does merge distinct RHS contents. -/
theorem addReduction_collision_not_two_nodes :
    Res.map (fun f => f.rhsNodes.length)
      (runOps newForest [.addReduction c5sym 3 [c5child1],
                         .addReduction c5sym 3 [c5child2]]) = Res.ok 1 ∧
    c5child1 ≠ c5child2 ∧
    rhsSignature [c5child1] 0 = rhsSignature [c5child2] 0 := by decide

/-- C5 as amended.  RHS-nodes are identified by `(rule, start, Σ)` alone
(`lr/sppf/forest.go`, `findRHS`): a second `AddReduction` with the same
rule, the same start position and the same signature adds no new RHS-node
— even when its children differ from the first call's — the existing node
is shared.  Distinct RHS contents are kept apart only when their
signatures differ. -/
theorem addReduction_merges_on_equal_signature
    (f f1 f2 : Forest) (sym1 sym2 : Symbol) (rule : Int)
    (d1 : SymbolNode) (t1 : List SymbolNode) (d2 : SymbolNode) (t2 : List SymbolNode)
    (n1 n2 : Option SymbolNode)
    (h1 : AddReduction f sym1 rule (d1 :: t1) = Res.ok (f1, n1))
    (h2 : AddReduction f1 sym2 rule (d2 :: t2) = Res.ok (f2, n2))
    (hstart : d2.fromPos = d1.fromPos)
    (hsig : rhsSignature (d2 :: t2) d2.fromPos = rhsSignature (d1 :: t1) d1.fromPos) :
    f2.rhsNodes = f1.rhsNodes := by
  have hf1 := AddReduction_rhsNodes h1
  have hf2 := AddReduction_rhsNodes h2
  obtain ⟨hmem, hs, hr, hsg⟩ := addRHSNode_spec f rule (d1 :: t1) d1.fromPos
  rw [← hf1] at hmem
  obtain ⟨m, hfind⟩ := @findRHSNode_isSome_of_mem f1 rule (d2 :: t2) d2.fromPos _
    hmem (by rw [hs, hstart]) hr (by rw [hsg, ← hsig])
  rw [hf2, addRHSNode_of_found hfind]

/-- Forest produced by the first C5 reduction. -/
def c5f1 : Forest :=
  match AddReduction newForest c5sym 3 [c5child1] with
  | .ok (f, _) => f
  | .crash => newForest

/-- Node returned by the first C5 reduction. -/
def c5n1 : Option SymbolNode :=
  match AddReduction newForest c5sym 3 [c5child1] with
  | .ok (_, n) => n
  | .crash => none

/-- Forest produced by the second C5 reduction. -/
def c5f2 : Forest :=
  match AddReduction c5f1 c5sym 3 [c5child2] with
  | .ok (f, _) => f
  | .crash => newForest

/-- Node returned by the second C5 reduction. -/
def c5n2 : Option SymbolNode :=
  match AddReduction c5f1 c5sym 3 [c5child2] with
  | .ok (_, n) => n
  | .crash => none

/-- Witness for C5 at the concrete colliding reductions. -/
theorem addReduction_merges_on_equal_signature_wit :
    c5f2.rhsNodes = c5f1.rhsNodes :=
  addReduction_merges_on_equal_signature newForest c5f1 c5f2 c5sym c5sym 3
    c5child1 [] c5child2 [] c5n1 c5n2 (by decide) (by decide) (by decide) (by decide)

/- ===== C6 ===== -/

/-- Gaplessness of and-edge sequence numbers: below every edge's sequence
number, every smaller number is carried by some and-edge of the same
RHS-node. -/
def SeqOK (f : Forest) : Prop :=
  ∀ e ∈ f.andEdges, ∀ k < e.seq, ∃ e2 ∈ f.andEdges, e2.fromRHS = e.fromRHS ∧ e2.seq = k

theorem seqOK_congr {f f' : Forest} (h : f'.andEdges = f.andEdges) (hok : SeqOK f) :
    SeqOK f' := by
  unfold SeqOK
  rw [h]
  exact hok

theorem seqOK_addAndEdge {f : Forest} {rhs : RhsNode} {seq : Nat} {sym : Symbol}
    {a b : Nat} {f' : Forest} {e : AndEdge}
    (h : addAndEdge f rhs seq sym a b = Res.ok (f', e)) (hok : SeqOK f)
    (hprev : ∀ k < seq, ∃ e2 ∈ f.andEdges, e2.fromRHS = rhs ∧ e2.seq = k) :
    SeqOK f' ∧ (∀ k < seq + 1, ∃ e2 ∈ f'.andEdges, e2.fromRHS = rhs ∧ e2.seq = k) := by
  obtain ⟨hfrom, hseq, hto, hmem, hcases, -⟩ := addAndEdge_ok h
  rcases hcases with hEq | hApp
  · refine ⟨seqOK_congr hEq hok, ?_⟩
    intro k hk
    rcases Nat.lt_succ_iff_lt_or_eq.mp hk with hk' | rfl
    · obtain ⟨e2, h2, h3, h4⟩ := hprev k hk'
      exact ⟨e2, hEq ▸ h2, h3, h4⟩
    · exact ⟨e, hmem, hfrom, hseq⟩
  · constructor
    · intro e' he' k hk
      rw [hApp] at he'
      rcases List.mem_append.mp he' with hold | hnew
      · obtain ⟨e2, h2, h3, h4⟩ := hok e' hold k hk
        exact ⟨e2, hApp ▸ List.mem_append_left _ h2, h3, h4⟩
      · have he : e' = e := List.mem_singleton.mp hnew
        subst he
        rw [hseq] at hk
        obtain ⟨e2, h2, h3, h4⟩ := hprev k hk
        exact ⟨e2, hApp ▸ List.mem_append_left _ h2, hfrom ▸ h3, h4⟩
    · intro k hk
      rcases Nat.lt_succ_iff_lt_or_eq.mp hk with hk' | rfl
      · obtain ⟨e2, h2, h3, h4⟩ := hprev k hk'
        exact ⟨e2, hApp ▸ List.mem_append_left _ h2, h3, h4⟩
      · exact ⟨e, hmem, hfrom, hseq⟩

theorem seqOK_reductionLoop {rn : RhsNode} {sym : Symbol} {s en : Nat} :
    ∀ (ds : List SymbolNode) (i : Nat) (f f' : Forest), SeqOK f →
      (∀ k < i, ∃ e2 ∈ f.andEdges, e2.fromRHS = rn ∧ e2.seq = k) →
      reductionLoop rn sym s en f (List.enumFrom i ds) = Res.ok f' → SeqOK f' := by
  intro ds
  induction ds with
  | nil =>
      intro i f f' hok _ h
      unfold reductionLoop at h
      cases h
      exact hok
  | cons d ds ih =>
      intro i f f' hok hprev h
      rw [List.enumFrom_cons] at h
      unfold reductionLoop at h
      obtain ⟨pr, hstep, hrest⟩ := bind_ok h
      rcases pr with ⟨f1, e1⟩
      dsimp only at hrest
      obtain ⟨hok1, hprev1⟩ := seqOK_addAndEdge hstep hok hprev
      have hpe := parentUpdate_andEdges f1 d (findSymNode f1 sym s en)
      refine ih (i + 1) _ f' (seqOK_congr hpe hok1) ?_ hrest
      intro k hk
      obtain ⟨e2, h2, h3, h4⟩ := hprev1 k hk
      exact ⟨e2, hpe ▸ h2, h3, h4⟩

theorem seqOK_AddReduction {f : Forest} {sym : Symbol} {rule : Int}
    {rhs : List SymbolNode} {f' : Forest} {n : Option SymbolNode}
    (h : AddReduction f sym rule rhs = Res.ok (f', n)) (hok : SeqOK f) : SeqOK f' := by
  cases rhs with
  | nil =>
      unfold AddReduction at h
      cases h
      exact hok
  | cons d0 t =>
      unfold AddReduction at h
      obtain ⟨f3, hloop, hrest⟩ := bind_ok h
      dsimp only at hrest
      cases hrest
      have hpre : SeqOK (addOrEdge (addRHSNode f rule (d0 :: t) d0.fromPos).1 sym
          (addRHSNode f rule (d0 :: t) d0.fromPos).2 d0.fromPos
          (((d0 :: t).getLast (List.cons_ne_nil _ _)).toPos)) := by
        apply seqOK_congr (addOrEdge_andEdges _ _ _ _ _)
        exact seqOK_congr (addRHSNode_andEdges _ _ _ _) hok
      have henum : (d0 :: t).enum = List.enumFrom 0 (d0 :: t) := rfl
      rw [henum] at hloop
      have hloop' : SeqOK f3 :=
        seqOK_reductionLoop (d0 :: t) 0 _ f3 hpre
          (fun k hk => absurd hk (Nat.not_lt_zero k)) hloop
      by_cases hn : sym.name = startName
      · rw [if_pos hn]
        exact seqOK_congr rfl hloop'
      · rw [if_neg hn]
        exact hloop'

theorem seqOK_AddEpsilonReduction {f : Forest} {sym : Symbol} {rule : Int}
    {pos : Nat} {f' : Forest} {n : Option SymbolNode}
    (h : AddEpsilonReduction f sym rule pos = Res.ok (f', n)) (hok : SeqOK f) :
    SeqOK f' := by
  unfold AddEpsilonReduction at h
  obtain ⟨pr, hstep, hrest⟩ := bind_ok h
  rcases pr with ⟨f3, e0⟩
  dsimp only at hrest
  cases hrest
  have hpre : SeqOK (addOrEdge (addRHSNode f rule [] pos).1 sym
      (addRHSNode f rule [] pos).2 pos pos) := by
    apply seqOK_congr (addOrEdge_andEdges _ _ _ _ _)
    exact seqOK_congr (addRHSNode_andEdges _ _ _ _) hok
  obtain ⟨hok3, -⟩ := seqOK_addAndEdge hstep hpre
    (fun k hk => absurd hk (Nat.not_lt_zero k))
  have hpa := parentUpdate_andEdges f3 e0.toSym
    (findSymNode (addOrEdge (addRHSNode f rule [] pos).1 sym
      (addRHSNode f rule [] pos).2 pos pos) sym pos pos)
  by_cases hn : sym.name = startName
  · rw [if_pos hn]
    exact seqOK_congr (by rw [hpa]) hok3
  · rw [if_neg hn]
    exact seqOK_congr hpa hok3

theorem seqOK_runOp {f : Forest} {op : ForestOp} {f' : Forest}
    (h : runOp f op = Res.ok f') (hok : SeqOK f) : SeqOK f' := by
  cases op with
  | addReduction sym rule rhs =>
      unfold runOp at h
      obtain ⟨pr, hstep, hrest⟩ := bind_ok h
      rcases pr with ⟨f1, n⟩
      dsimp only at hrest
      cases hrest
      exact seqOK_AddReduction hstep hok
  | addEpsilonReduction sym rule pos =>
      unfold runOp at h
      obtain ⟨pr, hstep, hrest⟩ := bind_ok h
      rcases pr with ⟨f1, n⟩
      dsimp only at hrest
      cases hrest
      exact seqOK_AddEpsilonReduction hstep hok
  | addTerminal t pos =>
      unfold runOp at h
      cases h
      exact seqOK_congr (addSymNode_andEdges _ _ _ _) hok

theorem seqOK_runOps :
    ∀ (ops : List ForestOp) (f f' : Forest), runOps f ops = Res.ok f' →
      SeqOK f → SeqOK f' := by
  intro ops
  induction ops with
  | nil =>
      intro f f' h hok
      unfold runOps at h
      cases h
      exact hok
  | cons op rest ih =>
      intro f f' h hok
      unfold runOps at h
      obtain ⟨f1, hstep, hrest⟩ := bind_ok h
      exact ih f1 f' hrest (seqOK_runOp hstep hok)

/-- The child symbol nodes of the C6 instance: `A (0…1)`, `B (1…2)` and
`B (1…3)` — the two `B` nodes share `(symbol, from)` and hence the
signature contribution, but are distinct nodes. -/
def c6childA : SymbolNode :=
  { sym := { name := 21, value := 101, terminal := false }, fromPos := 0, toPos := 1 }

/-- `B (1…2)`. -/
def c6childB2 : SymbolNode :=
  { sym := { name := 22, value := 102, terminal := false }, fromPos := 1, toPos := 2 }

/-- `B (1…3)`. -/
def c6childB3 : SymbolNode :=
  { sym := { name := 22, value := 102, terminal := false }, fromPos := 1, toPos := 3 }

/-- The two reductions of the C6 instance: same rule 1, same start, same
signature — the RHS-node is shared — but different second children. -/
def c6ops : List ForestOp :=
  [.addReduction { name := 20, value := 100, terminal := false } 1 [c6childA, c6childB2],
   .addReduction { name := 20, value := 100, terminal := false } 1 [c6childA, c6childB3]]

/-- C6 counterexample.  After the two `AddReduction` calls of `c6ops` (a rule
with `|RHS| = 2`), the shared RHS-node carries THREE and-edges with
sequence numbers `0, 1, 1`: the claimed numbering `0..|RHS|-1` without
duplicates is violated — the second call reuses the RHS-node (equal rule,
start and signature) and adds a second edge numbered 1 for its different
second child. -/
theorem andEdge_duplicate_sequence :
    Res.map (fun f => f.andEdges.map AndEdge.seq) (runOps newForest c6ops) =
      Res.ok [0, 1, 1] ∧
    ¬ List.Nodup [0, 1, 1] := by decide

/-- C6 as amended.  After every sequence of `AddReduction`,
`AddEpsilonReduction` and `AddTerminal` calls on a fresh forest, each
RHS-node's and-edge sequence numbers are gapless: below any edge's number
every smaller number occurs on an and-edge of the same RHS-node (so the
numbers present form an initial range `0..m-1`), and an ε-reduction only
contributes edges numbered 0 pointing at the synthetic ε terminal node.
Duplicate sequence numbers, however, can occur when two reductions share
an RHS-node (equal rule, start and signature Σ) while passing different
children symbol-nodes. -/
theorem andEdge_sequences_gapless :
    (∀ (ops : List ForestOp) (f : Forest), runOps newForest ops = Res.ok f →
      ∀ e ∈ f.andEdges, ∀ k < e.seq,
        ∃ e2 ∈ f.andEdges, e2.fromRHS = e.fromRHS ∧ e2.seq = k) ∧
    (∀ (f : Forest) (sym : Symbol) (rule : Int) (pos : Nat) (f' : Forest)
        (n : Option SymbolNode),
      AddEpsilonReduction f sym rule pos = Res.ok (f', n) →
      ∀ e ∈ f'.andEdges, e ∈ f.andEdges ∨
        (e.seq = 0 ∧ e.toSym = { sym := epsSymbol, fromPos := pos, toPos := pos })) := by
  constructor
  · intro ops f h
    exact seqOK_runOps ops newForest f h (by intro e he; cases he)
  · intro f sym rule pos f' n h e he
    unfold AddEpsilonReduction at h
    obtain ⟨pr, hstep, hrest⟩ := bind_ok h
    rcases pr with ⟨f3, e0⟩
    dsimp only at hrest
    obtain ⟨hfrom, hseq, hto, hmem, hcases, -⟩ := addAndEdge_ok hstep
    have hf' : f'.andEdges = f3.andEdges := by
      cases hrest
      have hpa := parentUpdate_andEdges f3 e0.toSym
        (findSymNode (addOrEdge (addRHSNode f rule [] pos).1 sym
          (addRHSNode f rule [] pos).2 pos pos) sym pos pos)
      by_cases hn : sym.name = startName <;> simp only [hn] <;> simp [hpa]
    rw [hf'] at he
    have hbase : (addOrEdge (addRHSNode f rule [] pos).1 sym
        (addRHSNode f rule [] pos).2 pos pos).andEdges = f.andEdges := by
      rw [addOrEdge_andEdges, addRHSNode_andEdges]
    rcases hcases with hEq | hApp
    · rw [hEq, hbase] at he
      exact Or.inl he
    · rw [hApp, hbase] at he
      rcases List.mem_append.mp he with hold | hnew
      · exact Or.inl hold
      · have : e = e0 := List.mem_singleton.mp hnew
        subst this
        exact Or.inr ⟨hseq, hto⟩

/-- The forest after the C6 operations, extracted from the run. -/
def c6forestV : Forest :=
  match runOps newForest c6ops with
  | .ok f => f
  | .crash => newForest

/-- The duplicate-sequence edge of the C6 forest (second child of the second
reduction, sequence 1). -/
def c6edge : AndEdge :=
  { fromRHS := { rule := 1, start := 0, sigma := 95527 }, toSym := c6childB3, seq := 1 }

/-- Witness for C6: the gaplessness theorem applied at the concrete run,
yielding the sequence-0 edge below the sequence-1 edge. -/
theorem andEdge_sequences_gapless_wit :
    ∃ e2 ∈ c6forestV.andEdges, e2.fromRHS = c6edge.fromRHS ∧ e2.seq = 0 :=
  andEdge_sequences_gapless.1 c6ops c6forestV (by decide) c6edge (by decide) 0
    (by decide)

/- ===== C7 ===== -/

/-- A value is among the (up to two) actions stored in a table cell. -/
def pairContains (p : IntPair) (x : Int) : Prop :=
  p.a = x ∨ p.b = x

instance (p : IntPair) (x : Int) : Decidable (pairContains p x) := by
  unfold pairContains
  infer_instance

theorem addIntValue_contains (v : IntPair) (n z : Int) :
    pairContains (addIntValue v n z) n := by
  unfold addIntValue pairContains
  by_cases h1 : v.a = z
  · rw [if_pos h1]
    exact Or.inl rfl
  · rw [if_neg h1]
    by_cases h2 : v.b = z
    · rw [if_pos h2]
      exact Or.inr rfl
    · rw [if_neg h2]
      exact Or.inr rfl

theorem addIntValue_fst (v : IntPair) (n z : Int) (h : v.a ≠ z) :
    (addIntValue v n z).a = v.a := by
  unfold addIntValue
  rw [if_neg h]
  by_cases h2 : v.b = z
  · rw [if_pos h2]
  · rw [if_neg h2]

theorem find?_cons_key {c : (Nat × Int) × IntPair} {L : List ((Nat × Int) × IntPair)}
    {key : Nat × Int} :
    List.find? (fun x => x.1 = key) (c :: L) =
      if c.1 = key then some c else List.find? (fun x => x.1 = key) L := by
  rw [List.find?_cons]
  by_cases h : c.1 = key
  · rw [if_pos h]
    simp [h]
  · rw [if_neg h]
    simp [h]

theorem find?_map_addIntValue (L : List ((Nat × Int) × IntPair)) (key : Nat × Int)
    (n z : Int) :
    List.find? (fun c => c.1 = key)
        (L.map fun c => if c.1 = key then (c.1, addIntValue c.2 n z) else c) =
      (List.find? (fun c => c.1 = key) L).map fun c => (c.1, addIntValue c.2 n z) := by
  induction L with
  | nil => rfl
  | cons c L ih =>
      rw [List.map_cons]
      by_cases hc : c.1 = key
      · rw [if_pos hc, find?_cons_key, find?_cons_key,
          if_pos (show ((c.1, addIntValue c.2 n z).1 = key) from hc), if_pos hc]
        rfl
      · rw [if_neg hc, find?_cons_key, find?_cons_key, if_neg hc, if_neg hc]
        exact ih

theorem find?_map_addIntValue_other (L : List ((Nat × Int) × IntPair))
    (key key2 : Nat × Int) (n z : Int) (h : key2 ≠ key) :
    List.find? (fun c => c.1 = key2)
        (L.map fun c => if c.1 = key then (c.1, addIntValue c.2 n z) else c) =
      List.find? (fun c => c.1 = key2) L := by
  induction L with
  | nil => rfl
  | cons c L ih =>
      rw [List.map_cons]
      by_cases hc : c.1 = key
      · rw [if_pos hc, find?_cons_key, find?_cons_key]
        dsimp only
        rw [if_neg (by rw [hc]; exact fun he => h he.symm),
          if_neg (by rw [hc]; exact fun he => h he.symm)]
        exact ih
      · rw [if_neg hc, find?_cons_key, find?_cons_key]
        by_cases hc2 : c.1 = key2
        · rw [if_pos hc2, if_pos hc2]
        · rw [if_neg hc2, if_neg hc2]
          exact ih

theorem find?_append_of_none {α : Type} {p : α → Bool} {l1 l2 : List α}
    (h : l1.find? p = none) : (l1 ++ l2).find? p = l2.find? p := by
  induction l1 with
  | nil => rfl
  | cons x l1 ih =>
      rw [List.find?_cons] at h
      cases hx : p x with
      | true => rw [hx] at h; cases h
      | false =>
          rw [hx] at h
          rw [List.cons_append, List.find?_cons, hx]
          exact ih h

theorem find?_append_of_some {α : Type} {p : α → Bool} {l1 l2 : List α} {a : α}
    (h : l1.find? p = some a) : (l1 ++ l2).find? p = some a := by
  induction l1 with
  | nil => cases h
  | cons x l1 ih =>
      rw [List.find?_cons] at h
      rw [List.cons_append, List.find?_cons]
      cases hx : p x with
      | true => rw [hx] at h; rw [h]
      | false =>
          rw [hx] at h
          exact ih h

theorem find?_key_none_of_not_any {L : List ((Nat × Int) × IntPair)}
    {key : Nat × Int} (h : L.any (fun c => c.1 = key) = false) :
    List.find? (fun c => c.1 = key) L = none := by
  induction L with
  | nil => rfl
  | cons c L ih =>
      rw [List.any_cons, Bool.or_eq_false_iff] at h
      rw [find?_cons_key, if_neg (by simpa using h.1)]
      exact ih h.2

theorem find?_key_some_of_any {L : List ((Nat × Int) × IntPair)}
    {key : Nat × Int} (h : L.any (fun c => c.1 = key) = true) :
    ∃ c, List.find? (fun c => c.1 = key) L = some c := by
  induction L with
  | nil => cases h
  | cons c L ih =>
      rw [find?_cons_key]
      by_cases hc : c.1 = key
      · rw [if_pos hc]
        exact ⟨c, rfl⟩
      · rw [if_neg hc]
        rw [List.any_cons, Bool.or_eq_true_iff] at h
        rcases h with h | h
        · exact absurd (by simpa using h) hc
        · exact ih h

theorem cellPair_matrixAdd_same (t : STable) (i : Nat) (j : Int) (n : Int) :
    cellPair (matrixAdd t i j n) i j = addIntValue (cellPair t i j) n t.nullval := by
  unfold matrixAdd cellPair
  by_cases hp : t.cells.any (fun c => c.1 = (i, j))
  · rw [if_pos hp]
    dsimp only
    rw [find?_map_addIntValue]
    obtain ⟨c, hc⟩ := find?_key_some_of_any hp
    rw [hc]
    rfl
  · rw [if_neg hp]
    dsimp only
    have hnone := find?_key_none_of_not_any (Bool.of_not_eq_true hp)
    rw [find?_append_of_none hnone, hnone, find?_cons_key, if_pos rfl]
    unfold addIntValue
    rw [if_pos rfl]

theorem cellPair_matrixAdd_other (t : STable) (i : Nat) (j : Int) (n : Int)
    (i2 : Nat) (j2 : Int) (h : (i2, j2) ≠ (i, j)) :
    cellPair (matrixAdd t i j n) i2 j2 = cellPair t i2 j2 := by
  unfold matrixAdd cellPair
  by_cases hp : t.cells.any (fun c => c.1 = (i, j))
  · rw [if_pos hp]
    dsimp only
    rw [find?_map_addIntValue_other _ _ _ _ _ h]
  · rw [if_neg hp]
    dsimp only
    cases hf : List.find? (fun c => c.1 = (i2, j2)) t.cells with
    | some c => rw [find?_append_of_some hf]
    | none =>
        rw [find?_append_of_none hf, find?_cons_key,
          if_neg (fun he => h (by rw [← he]))]
        rfl

theorem matrixAdd_nullval (t : STable) (i : Nat) (j : Int) (n : Int) :
    (matrixAdd t i j n).nullval = t.nullval := by
  unfold matrixAdd
  split <;> rfl

theorem matrixAdd_mincol (t : STable) (i : Nat) (j : Int) (n : Int) :
    (matrixAdd t i j n).mincol = t.mincol := by
  unfold matrixAdd
  split <;> rfl

theorem contains_matrixAdd_self (t : STable) (i : Nat) (j : Int) (n : Int) :
    pairContains (cellPair (matrixAdd t i j n) i j) n := by
  rw [cellPair_matrixAdd_same]
  exact addIntValue_contains _ _ _

theorem contains_matrixAdd (t : STable) (i : Nat) (j : Int) (n : Int)
    (i' : Nat) (j' : Int) (h : pairContains (cellPair t i' j') n) :
    pairContains (cellPair (matrixAdd t i j n) i' j') n := by
  by_cases hk : (i', j') = (i, j)
  · rw [Prod.mk.injEq] at hk
    obtain ⟨hi, hj⟩ := hk
    subst hi
    subst hj
    exact contains_matrixAdd_self t i' j' n
  · rw [cellPair_matrixAdd_other t i j n i' j' hk]
    exact h

theorem fst_matrixAdd (t : STable) (i : Nat) (j : Int) (n : Int)
    (i' : Nat) (j' : Int) (h : (cellPair t i' j').a ≠ t.nullval) :
    (cellPair (matrixAdd t i j n) i' j').a = (cellPair t i' j').a := by
  by_cases hk : (i', j') = (i, j)
  · rw [Prod.mk.injEq] at hk
    obtain ⟨hi, hj⟩ := hk
    subst hi
    subst hj
    rw [cellPair_matrixAdd_same]
    exact addIntValue_fst _ _ _ h
  · rw [cellPair_matrixAdd_other t i j n i' j' hk]

theorem res_bind_pure {α : Type} (x : Res α) : (x >>= pure) = x := by
  cases x <;> rfl

theorem tableAdd_ok {t : STable} {i : Nat} {tt v : Int} {t' : STable}
    (h : tableAdd t i tt v = Res.ok t') :
    t' = matrixAdd t i (tt - t.mincol) v := by
  unfold tableAdd at h
  by_cases hj : tt - t.mincol < 0
  · rw [if_pos hj] at h
    cases h
  · rw [if_neg hj] at h
    cases h
    rfl

theorem tableValue_ok {t : STable} {i : Nat} {tt : Int} {a1 : Int}
    (h : tableValue t i tt = Res.ok a1) :
    a1 = (cellPair t i (tt - t.mincol)).a := by
  unfold tableValue at h
  by_cases hj : tt - t.mincol < 0
  · rw [if_pos hj] at h
    cases h
  · rw [if_neg hj] at h
    cases h
    rfl

theorem reduceStep_ok {sid : Nat} {inx : Int} {st : ActionState} {la : Int}
    {st' : ActionState} (h : reduceStep sid inx st la = Res.ok st') :
    st'.tbl = matrixAdd st.tbl sid (la - st.tbl.mincol) inx := by
  unfold reduceStep at h
  obtain ⟨p, hp, h2⟩ := bind_ok h
  obtain ⟨t1, ht1, h3⟩ := bind_ok h2
  cases h3
  exact tableAdd_ok ht1

theorem foldlM_reduceStep (sid : Nat) (inx : Int) :
    ∀ (L : List Int) (st st' : ActionState),
      L.foldlM (reduceStep sid inx) st = Res.ok st' →
      st'.tbl.nullval = st.tbl.nullval ∧ st'.tbl.mincol = st.tbl.mincol ∧
      (∀ la ∈ L, pairContains (cellPair st'.tbl sid (la - st.tbl.mincol)) inx) ∧
      (∀ i2 j2, pairContains (cellPair st.tbl i2 j2) inx →
        pairContains (cellPair st'.tbl i2 j2) inx) ∧
      (∀ i2 j2, (cellPair st.tbl i2 j2).a ≠ st.tbl.nullval →
        (cellPair st'.tbl i2 j2).a = (cellPair st.tbl i2 j2).a) := by
  intro L
  induction L with
  | nil =>
      intro st st' h
      cases h
      exact ⟨rfl, rfl, by simp, fun _ _ hc => hc, fun _ _ _ => rfl⟩
  | cons la L ih =>
      intro st st' h
      rw [List.foldlM_cons] at h
      obtain ⟨st1, hstep, hrest⟩ := bind_ok h
      have ht1 := reduceStep_ok hstep
      have hnull1 : st1.tbl.nullval = st.tbl.nullval := by
        rw [ht1, matrixAdd_nullval]
      have hmin1 : st1.tbl.mincol = st.tbl.mincol := by
        rw [ht1, matrixAdd_mincol]
      obtain ⟨hnull, hmin, hlas, hpres, hfst⟩ := ih st1 st' hrest
      refine ⟨hnull.trans hnull1, hmin.trans hmin1, ?_, ?_, ?_⟩
      · intro la' hla'
        rcases List.mem_cons.mp hla' with rfl | hla'
        · apply hpres
          rw [ht1]
          exact contains_matrixAdd_self _ _ _ _
        · have := hlas la' hla'
          rw [hmin1] at this
          exact this
      · intro i2 j2 hc
        apply hpres
        rw [ht1]
        exact contains_matrixAdd _ _ _ _ _ _ hc
      · intro i2 j2 ha
        have hfst1 : (cellPair st1.tbl i2 j2).a = (cellPair st.tbl i2 j2).a := by
          rw [ht1]
          exact fst_matrixAdd _ _ _ _ _ _ ha
        have := hfst i2 j2 (by rw [hfst1, hnull1]; exact ha)
        rw [this, hfst1]

theorem processShift_cases {st : ActionState} {sid : Nat} {a : Symbol}
    {st' : ActionState} (h : processShift st sid a = Res.ok st') :
    st'.tbl.nullval = st.tbl.nullval ∧ st'.tbl.mincol = st.tbl.mincol ∧
    ((st' = st ∧ (cellPair st.tbl sid (tokenType a - st.tbl.mincol)).a = ShiftAction) ∨
      st'.tbl = matrixAdd st.tbl sid (tokenType a - st.tbl.mincol) (pT a)) := by
  unfold processShift at h
  obtain ⟨a1, hval, h2⟩ := bind_ok h
  have ha1 := tableValue_ok hval
  by_cases hne : a1 ≠ st.tbl.nullval
  · rw [if_pos hne] at h2
    by_cases hsh : a1 = ShiftAction
    · rw [if_pos hsh] at h2
      cases h2
      exact ⟨rfl, rfl, Or.inl ⟨rfl, by rw [← ha1, hsh]⟩⟩
    · rw [if_neg hsh] at h2
      obtain ⟨t1, ht1, h3⟩ := bind_ok h2
      cases h3
      have := tableAdd_ok ht1
      exact ⟨by rw [this, matrixAdd_nullval], by rw [this, matrixAdd_mincol],
        Or.inr this⟩
  · rw [if_neg hne] at h2
    obtain ⟨t1, ht1, h3⟩ := bind_ok h2
    cases h3
    have := tableAdd_ok ht1
    exact ⟨by rw [this, matrixAdd_nullval], by rw [this, matrixAdd_mincol],
      Or.inr this⟩

theorem processItem_peek_terminal {g : Grammar} {follow : Symbol → List Int}
    {sid : Nat} {st : ActionState} {i : Item} {a : Symbol}
    (hpeek : peekSymbol i = some a) (hterm : a.terminal = true) :
    processItem g follow sid st i = processShift st sid a := by
  unfold processItem
  rw [hpeek]
  dsimp only
  rw [if_pos hterm]
  cases processShift st sid a <;> rfl

theorem processItem_peek_none {g : Grammar} {follow : Symbol → List Int}
    {sid : Nat} {st : ActionState} {i : Item} (hpeek : peekSymbol i = none) :
    processItem g follow sid st i =
      match matchesRHS g i.rule.lhs (prefixSyms i) with
      | some (r, inx) => (follow r.lhs).foldlM (reduceStep sid inx) st
      | none => Res.ok st := by
  unfold processItem
  rw [hpeek]
  rfl

theorem processItem_peek_nonterminal {g : Grammar} {follow : Symbol → List Int}
    {sid : Nat} {st : ActionState} {i : Item} {a : Symbol}
    (hpeek : peekSymbol i = some a) (hterm : a.terminal = false) :
    processItem g follow sid st i = Res.ok st := by
  unfold processItem
  rw [hpeek]
  dsimp only
  rw [if_neg (by rw [hterm]; exact Bool.false_ne_true)]
  rfl

/-- The terminal `c` (token type 5) on which the C7 state has a shift item. -/
def c7termC : Symbol := { name := 40, value := 5, terminal := true }

/-- Reducible rule `X → d` with serial 1; FOLLOW(X) contains `c`. -/
def c7ruleX : Rule :=
  { lhs := { name := 43, value := 100, terminal := false },
    rhs := [{ name := 41, value := 6, terminal := true }], serial := 1 }

/-- Reducible rule `Z → e` with serial 2; FOLLOW(Z) contains `c`. -/
def c7ruleZ : Rule :=
  { lhs := { name := 45, value := 101, terminal := false },
    rhs := [{ name := 42, value := 7, terminal := true }], serial := 2 }

/-- Rule `Y → c` providing the shift item `[Y → •c]`. -/
def c7ruleY : Rule :=
  { lhs := { name := 44, value := 102, terminal := false },
    rhs := [c7termC], serial := 3 }

/-- The C7 grammar. -/
def c7g : Grammar :=
  { rule0 := { lhs := { name := startName, value := 106, terminal := false },
               rhs := [{ name := 46, value := 105, terminal := false }], serial := 0 },
    moreRules := [c7ruleX, c7ruleZ, c7ruleY],
    symbols := [{ name := startName, value := 106, terminal := false },
                { name := 46, value := 105, terminal := false },
                { name := 43, value := 100, terminal := false },
                { name := 44, value := 102, terminal := false },
                { name := 45, value := 101, terminal := false },
                c7termC,
                { name := 41, value := 6, terminal := true },
                { name := 42, value := 7, terminal := true }] }

/-- FOLLOW sets of the C7 instance: `c` follows both `X` and `Z`. -/
def c7follow : Symbol → List Int := fun s =>
  if s = c7ruleX.lhs then [5] else if s = c7ruleZ.lhs then [5] else []

/-- The shift item `[Y → •c]`. -/
def c7shiftItem : Item := { rule := c7ruleY, dot := 0, origin := 0 }

/-- A CFSM state whose items are processed in the order: reduce `X`, shift
`c`, reduce `Z` — all three targeting the same ACTION cell. -/
def c7state : CFSMStateE :=
  { id := 0,
    items := [{ rule := c7ruleX, dot := 1, origin := 0 }, c7shiftItem,
              { rule := c7ruleZ, dot := 1, origin := 0 }] }

/-- C7 counterexample.  In the state `c7state` the item `[Y → •c]` has the
terminal `c` (≠ EOF) after its dot, so the claim requires the final table
to have `ACTION[0, c] = shift (-1)`.  But the cell receives three actions
(reduce 1, shift, reduce 2); a cell holds at most two values and a third
action overwrites the second, so the finished table's cell is `(1, 2)` —
the shift entry has been evicted. -/
theorem slr1_shift_entry_evicted :
    Res.map (fun st => lookupAction st.tbl 0 (tokenType c7termC))
      (BuildSLR1ActionTable c7g c7follow [c7state]) =
      Res.ok { a := 1, b := 2 } ∧
    peekSymbol c7shiftItem = some c7termC ∧ c7termC.terminal = true ∧
    tokenType c7termC ≠ scannerEOF ∧ c7shiftItem ∈ c7state.items ∧
    ¬ pairContains { a := 1, b := 2 } ShiftAction := by decide

/-- C7 as amended.  `BuildSLR1ActionTable` processes every item of every CFSM
state through `processItem`, and one processing step guarantees, for the
state of the table at that moment: (1) for an item with a terminal `a ≠
EOF` after the dot, the cell `(s, a)` contains the shift entry `-1`
afterwards; (2) for an item with EOF after the dot, the cell `(s, EOF)`
contains the accept entry `-2` afterwards, provided the cell's first entry
was not already a shift; (3) for a reducible item matched to rule `k` (a
nonnegative index — 0 for the start rule, not a positive number), every
lookahead `a` in FOLLOW of the matched rule's LHS gets an entry `k` in
cell `(s, a)`; and (4) a cell's first entry, once set, is never changed by
later item processing — but the second entry of a cell may be overwritten
by later conflicting actions, so an entry need not survive into the
finished table (see the eviction counterexample). -/
theorem processItem_action_entries :
    (∀ (g : Grammar) (follow : Symbol → List Int) (sid : Nat)
        (st st' : ActionState) (i : Item) (a : Symbol),
      peekSymbol i = some a → a.terminal = true → tokenType a ≠ scannerEOF →
      processItem g follow sid st i = Res.ok st' →
      pairContains (lookupAction st'.tbl sid (tokenType a)) ShiftAction) ∧
    (∀ (g : Grammar) (follow : Symbol → List Int) (sid : Nat)
        (st st' : ActionState) (i : Item) (a : Symbol),
      peekSymbol i = some a → a.terminal = true → tokenType a = scannerEOF →
      (lookupAction st.tbl sid (tokenType a)).a ≠ ShiftAction →
      processItem g follow sid st i = Res.ok st' →
      pairContains (lookupAction st'.tbl sid (tokenType a)) AcceptAction) ∧
    (∀ (g : Grammar) (follow : Symbol → List Int) (sid : Nat)
        (st st' : ActionState) (i : Item) (r : Rule) (inx : Int) (la : Int),
      peekSymbol i = none →
      matchesRHS g i.rule.lhs (prefixSyms i) = some (r, inx) →
      la ∈ follow r.lhs →
      processItem g follow sid st i = Res.ok st' →
      pairContains (lookupAction st'.tbl sid la) inx) ∧
    (∀ (g : Grammar) (follow : Symbol → List Int) (sid : Nat)
        (st st' : ActionState) (i : Item) (i2 : Nat) (j2 : Int),
      processItem g follow sid st i = Res.ok st' →
      (cellPair st.tbl i2 j2).a ≠ st.tbl.nullval →
      (cellPair st'.tbl i2 j2).a = (cellPair st.tbl i2 j2).a) := by
  have hshift : ∀ (st st' : ActionState) (sid : Nat) (a : Symbol),
      processShift st sid a = Res.ok st' →
      pairContains (lookupAction st'.tbl sid (tokenType a)) (pT a) ∨
        (st' = st ∧ (cellPair st.tbl sid (tokenType a - st.tbl.mincol)).a = ShiftAction) := by
    intro st st' sid a h
    obtain ⟨-, hmin, hcases⟩ := processShift_cases h
    rcases hcases with ⟨rfl, hfst⟩ | htbl
    · exact Or.inr ⟨rfl, hfst⟩
    · left
      unfold lookupAction
      rw [hmin, htbl]
      exact contains_matrixAdd_self _ _ _ _
  refine ⟨?_, ?_, ?_, ?_⟩
  · intro g follow sid st st' i a hpeek hterm hne hrun
    rw [processItem_peek_terminal hpeek hterm] at hrun
    rcases hshift st st' sid a hrun with hc | ⟨rfl, hfst⟩
    · have hp : pT a = ShiftAction := by
        unfold pT
        rw [if_neg hne]
      rw [hp] at hc
      exact hc
    · exact Or.inl hfst
  · intro g follow sid st st' i a hpeek hterm heof hfirst hrun
    rw [processItem_peek_terminal hpeek hterm] at hrun
    rcases hshift st st' sid a hrun with hc | ⟨rfl, hfst⟩
    · have hp : pT a = AcceptAction := by
        unfold pT
        rw [if_pos heof]
      rw [hp] at hc
      exact hc
    · exact absurd hfst hfirst
  · intro g follow sid st st' i r inx la hpeek hmatch hla hrun
    rw [processItem_peek_none hpeek, hmatch] at hrun
    obtain ⟨-, hmin, hlas, -, -⟩ := foldlM_reduceStep sid inx (follow r.lhs) st st' hrun
    have := hlas la hla
    unfold lookupAction
    rw [hmin]
    exact this
  · intro g follow sid st st' i i2 j2 hrun ha
    cases hpeek : peekSymbol i with
    | some a =>
        cases hterm : a.terminal with
        | true =>
            rw [processItem_peek_terminal hpeek hterm] at hrun
            obtain ⟨hnull, -, hcases⟩ := processShift_cases hrun
            rcases hcases with ⟨rfl, -⟩ | htbl
            · rfl
            · rw [htbl]
              exact fst_matrixAdd _ _ _ _ _ _ ha
        | false =>
            rw [processItem_peek_nonterminal hpeek hterm] at hrun
            cases hrun
            rfl
    | none =>
        rw [processItem_peek_none hpeek] at hrun
        cases hmatch : matchesRHS g i.rule.lhs (prefixSyms i) with
        | some p =>
            rcases p with ⟨r, inx⟩
            rw [hmatch] at hrun
            obtain ⟨-, -, -, -, hfst⟩ := foldlM_reduceStep sid inx (follow r.lhs) st st' hrun
            exact hfst i2 j2 ha
        | none =>
            rw [hmatch] at hrun
            cases hrun
            rfl

/-- Initial action-table state over the C7 grammar's column range. -/
def c7st0 : ActionState :=
  { tbl := { cells := [], nullval := defaultNullValue, mincol := 0 },
    conflicts := false }

/-- State after processing the shift item on the empty table. -/
def c7shiftResult : ActionState :=
  match processItem c7g c7follow 0 c7st0 c7shiftItem with
  | .ok st => st
  | .crash => c7st0

/-- Witness for C7: the shift conjunct applied at a concrete processing step. -/
theorem processItem_action_entries_wit :
    pairContains (lookupAction c7shiftResult.tbl 0 (tokenType c7termC)) ShiftAction :=
  processItem_action_entries.1 c7g c7follow 0 c7st0 c7shiftResult c7shiftItem c7termC
    (by decide) (by decide) (by decide) (by decide)

end Gorgo
